import Mathlib

/-!
Verification of the ordered key-value index of JiNioR08/yongin
(`src/pages/06_tree_benchmark.py`, `src/pages/BST.py`,
`src/pages/pages/06_tree_benchmark.py`).

The Python trees are pointer structures mutated in place.  We embed them
shallowly: the heap of nodes reachable from `root` is an inductive binary
tree, and a node pointer is a *zipper* (the focused subtree together with
the path of ancestor frames up to the root).  A parent pointer `x.p` is the
head frame of the zipper's context; the RBT sentinel `self.nil`
(`RBNode(c=BLACK)` whose child/parent fields self-loop) is the `nil`
constructor, whose color is BLACK.  Python `while` loops become recursion
on the zipper context / structural recursion, with fuel where the source
loop's variant is not structural.  Keys are Python ints, embedded as `Int`;
values are an arbitrary type `V`.
-/

namespace Yongin

/-- Colors of red-black nodes.  Source: `RED, BLACK = 1, 0`. -/
inductive Color : Type
| red  : Color
| black : Color
deriving DecidableEq, Repr

/-- Binary tree skeleton shared by both engines.  `A` is the whole node
payload: `(key, value)` for the BST, `(color, key, value)` for the RBT.
`nil` stands for Python `None` (BST) and for the sentinel `self.nil`
(RBT). -/
inductive Tree (A : Type) : Type
| nil : Tree A
| node (l : Tree A) (a : A) (r : Tree A) : Tree A
deriving DecidableEq, Repr

namespace Tree

/-- Number of (real) nodes in a tree. -/
def size {A : Type} : Tree A → Nat
| nil => 0
| node l _ r => size l + size r + 1

/-- In-order payload sequence of a tree. -/
def inorder {A : Type} : Tree A → List A
| nil => []
| node l a r => inorder l ++ a :: inorder r

/-- Natural (recursive) height: number of levels, `0` for the empty tree.
This is the mathematical specification; the source computes the same number
either with an explicit stack (`pages/06_tree_benchmark.py`) or recursively
(`pages/pages/06_tree_benchmark.py`). -/
def heightN {A : Type} : Tree A → Nat
| nil => 0
| node l _ r => 1 + max (heightN l) (heightN r)

theorem length_inorder {A : Type} (t : Tree A) : (inorder t).length = size t := by
  induction t with
  | nil => rfl
  | node l a r ihl ihr => simp [inorder, size, ihl, ihr]; omega

end Tree

/-- One ancestor frame of a zipper: `left a sib` means the focus is the
LEFT child of a node with payload `a` whose right subtree is `sib`
(`right` is the mirror).  The frame plays the role of the Python parent
pointer: the head frame of a context is `x.p`. -/
inductive Frame (A : Type) : Type
| left (a : A) (sib : Tree A) : Frame A
| right (a : A) (sib : Tree A) : Frame A
deriving DecidableEq, Repr

/-- The path from a node up to the root, innermost frame first. -/
abbrev Ctx (A : Type) := List (Frame A)

/-- Rebuild the whole tree from a focused subtree and its context. -/
def plug {A : Type} : Tree A → Ctx A → Tree A
| t, [] => t
| t, Frame.left a sib :: ctx => plug (Tree.node t a sib) ctx
| t, Frame.right a sib :: ctx => plug (Tree.node sib a t) ctx

/-- A zipper: a focused subtree plus the path to the root.  This is the
embedding of a Python node pointer into a given tree. -/
structure Zipper (A : Type) : Type where
  focus : Tree A
  ctx : Ctx A
deriving DecidableEq, Repr

/-- Payloads strictly before the focus in the in-order sequence of the
rebuilt tree. -/
def ctxBefore {A : Type} : Ctx A → List A
| [] => []
| Frame.left _ _ :: ctx => ctxBefore ctx
| Frame.right a sib :: ctx => ctxBefore ctx ++ sib.inorder ++ [a]

/-- Payloads strictly after the focused subtree in the in-order sequence
of the rebuilt tree. -/
def ctxAfter {A : Type} : Ctx A → List A
| [] => []
| Frame.left a sib :: ctx => a :: sib.inorder ++ ctxAfter ctx
| Frame.right _ _ :: ctx => ctxAfter ctx

theorem inorder_plug {A : Type} (t : Tree A) (ctx : Ctx A) :
    (plug t ctx).inorder = ctxBefore ctx ++ t.inorder ++ ctxAfter ctx := by
  induction ctx generalizing t with
  | nil => simp [plug, ctxBefore, ctxAfter]
  | cons f ctx ih =>
    cases f with
    | left a sib => simp [plug, ctxBefore, ctxAfter, ih, Tree.inorder]
    | right a sib => simp [plug, ctxBefore, ctxAfter, ih, Tree.inorder]

section Traversal

variable {A : Type} (key : A → Int)

/-- `lower_bound` descent, shared verbatim (up to variable names) by
`BST.lower_bound`, benchmark `RBTree.lower_bound` and dashboard
`RBTree.lower_bound`:

    cur, res = self.root, None          # RBT: res = self.nil
    while cur is not None:              # RBT: while cur != self.nil
        if cur.k >= k: res = cur; cur = cur.left
        else: cur = cur.right
    return res

The returned node pointer is a zipper; `None` / the sentinel is `none`. -/
def lbAux (k : Int) : Tree A → Ctx A → Option (Zipper A) → Option (Zipper A)
| Tree.nil, _, res => res
| Tree.node l a r, ctx, res =>
  if key a ≥ k then lbAux k l (Frame.left a r :: ctx) (some ⟨Tree.node l a r, ctx⟩)
  else lbAux k r (Frame.right a l :: ctx) res

def lower_bound (k : Int) (t : Tree A) : Option (Zipper A) := lbAux key k t [] none

/-- `_minimum` / `_min`: `while x.left is not None: x = x.left`.  Only ever
called on a real node; the `nil` branch is unreachable. -/
def minZ : Tree A → Ctx A → Zipper A
| Tree.nil, ctx => ⟨Tree.nil, ctx⟩
| Tree.node Tree.nil a r, ctx => ⟨Tree.node Tree.nil a r, ctx⟩
| Tree.node (Tree.node ll b lr) a r, ctx =>
    minZ (Tree.node ll b lr) (Frame.left a r :: ctx)

/-- The parent-walking half of `successor`:
`y = x.parent; while y is not None and x == y.right: x, y = y, y.parent; return y`.
Walking to the parent pops the head frame and rebuilds the child under it. -/
def upSucc : Tree A → Ctx A → Option (Zipper A)
| _, [] => none
| x, Frame.left a sib :: ctx => some ⟨Tree.node x a sib, ctx⟩
| x, Frame.right a sib :: ctx => upSucc (Tree.node sib a x) ctx

/-- `successor` / `succ`: if the node has a (real) right child return the
minimum of the right subtree, otherwise walk up.  Only ever called on a
real node; the `nil` focus is unreachable. -/
def succZ : Zipper A → Option (Zipper A)
| ⟨Tree.nil, _⟩ => none
| ⟨Tree.node l a Tree.nil, ctx⟩ => upSucc (Tree.node l a Tree.nil) ctx
| ⟨Tree.node l a (Tree.node rl b rr), ctx⟩ =>
    some (minZ (Tree.node rl b rr) (Frame.right a l :: ctx))

/-- The `range_count` loop:
`cnt = 0; x = lower_bound(lo); while x is not None and x.k <= hi: cnt += 1; x = successor(x)`.
The loop variant is the number of in-order successors left, which is not
structural; the translation uses fuel, and the callers pass `size t`,
which the correctness lemmas show is always enough. -/
def rangeLoopCount (hi : Int) : Nat → Option (Zipper A) → Nat
| _, none => 0
| 0, some _ => 0
| Nat.succ fuel, some z =>
  match z.focus with
  | Tree.nil => 0
  | Tree.node _ a _ =>
      if key a ≤ hi then 1 + rangeLoopCount hi fuel (succZ z) else 0

/-- The `range_items` loop (collecting form), emitting `out a` per visited
node (`out` projects the `(key, value)` pair out of the payload):
`out = []; x = lower_bound(lo); while x != nil and x.k <= hi: out.append((x.k, x.v)); x = successor(x)`. -/
def rangeLoopItems {B : Type} (out : A → B) (hi : Int) :
    Nat → Option (Zipper A) → List B
| _, none => []
| 0, some _ => []
| Nat.succ fuel, some z =>
  match z.focus with
  | Tree.nil => []
  | Tree.node _ a _ =>
      if key a ≤ hi then out a :: rangeLoopItems out hi fuel (succZ z) else []

/-- In-order payload sequence from a node (inclusive) to the end of the
tree; the successor loop walks exactly along this list. -/
def afterZ : Zipper A → List A
| ⟨Tree.nil, ctx⟩ => ctxAfter ctx
| ⟨Tree.node _ a r, ctx⟩ => a :: r.inorder ++ ctxAfter ctx

def afterO : Option (Zipper A) → List A
| none => []
| some z => afterZ z

/-- Pointers returned by the traversal helpers always reference a real
node (never the sentinel / `None`). -/
def FocusedO : Option (Zipper A) → Prop
| none => True
| some z => z.focus ≠ Tree.nil

theorem upSucc_after (ctx : Ctx A) (x : Tree A) :
    afterO (upSucc x ctx) = ctxAfter ctx ∧ FocusedO (upSucc x ctx) := by
  induction ctx generalizing x with
  | nil => simp [upSucc, afterO, ctxAfter, FocusedO]
  | cons f ctx ih =>
    cases f with
    | left a sib =>
      simp [upSucc, afterO, ctxAfter, FocusedO, afterZ]
    | right a sib =>
      simpa [upSucc, ctxAfter] using ih (Tree.node sib a x)

theorem minZ_after (t : Tree A) (ctx : Ctx A) (h : t ≠ Tree.nil) :
    afterZ (minZ t ctx) = t.inorder ++ ctxAfter ctx ∧
    (minZ t ctx).focus ≠ Tree.nil := by
  induction t generalizing ctx with
  | nil => exact absurd rfl h
  | node l a r ihl _ =>
    cases l with
    | nil => simp [minZ, afterZ, Tree.inorder]
    | node ll b lr =>
      have := ihl (Frame.left a r :: ctx) (by simp)
      simpa [minZ, ctxAfter, Tree.inorder] using this

theorem succZ_after (l r : Tree A) (a : A) (ctx : Ctx A) :
    afterO (succZ ⟨Tree.node l a r, ctx⟩) = r.inorder ++ ctxAfter ctx ∧
    FocusedO (succZ ⟨Tree.node l a r, ctx⟩) := by
  cases r with
  | nil =>
    simpa [succZ, Tree.inorder] using upSucc_after ctx (Tree.node l a Tree.nil)
  | node rl b rr =>
    have := minZ_after (Tree.node rl b rr) (Frame.right a l :: ctx) (by simp)
    refine ⟨?_, ?_⟩
    · simpa [succZ, afterO, ctxAfter] using this.1
    · simpa [succZ, FocusedO] using this.2

/-- Strictly ascending keys along a payload list (the in-order sequence of
a search tree with unique keys). -/
def KSorted (L : List A) : Prop := L.Pairwise (fun x y => key x < key y)

theorem lbAux_after (k : Int) (t : Tree A) :
    ∀ (ctx : Ctx A) (res : Option (Zipper A)),
    KSorted key (t.inorder ++ ctxAfter ctx) →
    afterO res = (ctxAfter ctx).filter (fun a => decide (k ≤ key a)) →
    FocusedO res →
    afterO (lbAux key k t ctx res)
      = (t.inorder ++ ctxAfter ctx).filter (fun a => decide (k ≤ key a)) ∧
    FocusedO (lbAux key k t ctx res) := by
  induction t with
  | nil =>
    intro ctx res hs hres hf
    simpa [lbAux, Tree.inorder] using And.intro hres hf
  | node l a r ihl ihr =>
    intro ctx res hs hres hf
    have hlist : (Tree.node l a r).inorder ++ ctxAfter ctx
        = l.inorder ++ (a :: (r.inorder ++ ctxAfter ctx)) := by
      simp [Tree.inorder]
    by_cases hka : key a ≥ k
    · -- cur.k >= k: record this node, continue left
      have hctx : ctxAfter (Frame.left a r :: ctx) = a :: (r.inorder ++ ctxAfter ctx) := by
        simp [ctxAfter]
      have hs' : KSorted key (l.inorder ++ (a :: (r.inorder ++ ctxAfter ctx))) := by
        rwa [hlist] at hs
      have htail : ∀ x ∈ r.inorder ++ ctxAfter ctx, key a < key x :=
        (List.pairwise_cons.mp (List.pairwise_append.mp hs').2.1).1
    -- every payload from this node on already has key ≥ k
      have hkeep : ((a :: (r.inorder ++ ctxAfter ctx)).filter (fun x => decide (k ≤ key x)))
          = a :: (r.inorder ++ ctxAfter ctx) := by
        apply List.filter_eq_self.mpr
        intro x hx
        rcases List.mem_cons.mp hx with rfl | hx
        · simpa using hka
        · have := htail x hx
          simp only [decide_eq_true_eq]
          omega
      have ih := ihl (Frame.left a r :: ctx) (some ⟨Tree.node l a r, ctx⟩)
        (by rw [hctx]; exact hs')
        (by rw [hctx, hkeep]; simp [afterO, afterZ])
        (by simp [FocusedO])
      constructor
      · rw [show lbAux key k (Tree.node l a r) ctx res
            = lbAux key k l (Frame.left a r :: ctx) (some ⟨Tree.node l a r, ctx⟩) by
            simp [lbAux, hka]]
        rw [ih.1, hctx, hlist]
      · rw [show lbAux key k (Tree.node l a r) ctx res
            = lbAux key k l (Frame.left a r :: ctx) (some ⟨Tree.node l a r, ctx⟩) by
            simp [lbAux, hka]]
        exact ih.2
    · -- cur.k < k: continue right, candidate unchanged
      push_neg at hka
      have hctx : ctxAfter (Frame.right a l :: ctx) = ctxAfter ctx := by
        simp [ctxAfter]
      have hs0 : KSorted key (l.inorder ++ (a :: (r.inorder ++ ctxAfter ctx))) := by
        rwa [hlist] at hs
      have hsub : (r.inorder ++ ctxAfter ctx).Sublist
          (l.inorder ++ (a :: (r.inorder ++ ctxAfter ctx))) :=
        (List.sublist_cons_self a (r.inorder ++ ctxAfter ctx)).trans
          (List.sublist_append_right _ _)
      have hs' : KSorted key (r.inorder ++ ctxAfter ctx) := hs0.sublist hsub
      have hleft : ∀ x ∈ l.inorder, key x < key a :=
        fun x hx => (List.pairwise_append.mp hs0).2.2 x hx a (by simp)
      have hdropl : (l.inorder).filter (fun x => decide (k ≤ key x)) = [] := by
        apply List.filter_eq_nil_iff.mpr
        intro x hx
        have := hleft x hx
        simp only [decide_eq_true_eq]
        omega
      have ih := ihr (Frame.right a l :: ctx) res
        (by rw [hctx]; exact hs') (by rw [hctx]; exact hres) hf
      constructor
      · rw [show lbAux key k (Tree.node l a r) ctx res
            = lbAux key k r (Frame.right a l :: ctx) res by
            simp [lbAux, not_le.mpr hka]]
        rw [ih.1, hctx, hlist]
        simp [List.filter_append, hdropl, List.filter_cons, not_le.mpr hka]
      · rw [show lbAux key k (Tree.node l a r) ctx res
            = lbAux key k r (Frame.right a l :: ctx) res by
            simp [lbAux, not_le.mpr hka]]
        exact ih.2

theorem lower_bound_after (k : Int) (t : Tree A) (hs : KSorted key t.inorder) :
    afterO (lower_bound key k t) = t.inorder.filter (fun a => decide (k ≤ key a)) ∧
    FocusedO (lower_bound key k t) := by
  have h := lbAux_after key k t [] none
    (by simpa [ctxAfter] using hs) (by simp [afterO, ctxAfter]) (by simp [FocusedO])
  simpa [lower_bound, ctxAfter] using h

theorem rangeLoopCount_spec (hi : Int) :
    ∀ (fuel : Nat) (z : Option (Zipper A)), FocusedO z → (afterO z).length ≤ fuel →
    rangeLoopCount key hi fuel z
      = ((afterO z).takeWhile (fun a => decide (key a ≤ hi))).length := by
  intro fuel
  induction fuel with
  | zero =>
    intro z hf hlen
    match z with
    | none => simp [rangeLoopCount, afterO]
    | some ⟨Tree.nil, ctx⟩ => exact absurd rfl hf
    | some ⟨Tree.node l a r, ctx⟩ => simp [afterO, afterZ] at hlen
  | succ fuel ih =>
    intro z hf hlen
    match z with
    | none => simp [rangeLoopCount, afterO]
    | some ⟨Tree.nil, ctx⟩ => exact absurd rfl hf
    | some ⟨Tree.node l a r, ctx⟩ =>
      have hsucc := succZ_after l r a ctx
      by_cases hha : key a ≤ hi
      · have hrec := ih (succZ ⟨Tree.node l a r, ctx⟩) hsucc.2 (by
          rw [hsucc.1]
          simp only [afterO, afterZ, List.length_cons, List.length_append] at hlen ⊢
          omega)
        rw [show rangeLoopCount key hi (fuel + 1) (some ⟨Tree.node l a r, ctx⟩)
              = 1 + rangeLoopCount key hi fuel (succZ ⟨Tree.node l a r, ctx⟩) by
              simp [rangeLoopCount, hha]]
        rw [hrec, hsucc.1]
        simp [afterO, afterZ, List.takeWhile_cons, hha]
        omega
      · simp only [rangeLoopCount, hha, if_false, afterO, afterZ]
        simp [List.takeWhile_cons, hha]

theorem rangeLoopItems_spec {B : Type} (out : A → B) (hi : Int) :
    ∀ (fuel : Nat) (z : Option (Zipper A)), FocusedO z → (afterO z).length ≤ fuel →
    rangeLoopItems key out hi fuel z
      = ((afterO z).takeWhile (fun a => decide (key a ≤ hi))).map out := by
  intro fuel
  induction fuel with
  | zero =>
    intro z hf hlen
    match z with
    | none => simp [rangeLoopItems, afterO]
    | some ⟨Tree.nil, ctx⟩ => exact absurd rfl hf
    | some ⟨Tree.node l a r, ctx⟩ => simp [afterO, afterZ] at hlen
  | succ fuel ih =>
    intro z hf hlen
    match z with
    | none => simp [rangeLoopItems, afterO]
    | some ⟨Tree.nil, ctx⟩ => exact absurd rfl hf
    | some ⟨Tree.node l a r, ctx⟩ =>
      have hsucc := succZ_after l r a ctx
      by_cases hha : key a ≤ hi
      · have hrec := ih (succZ ⟨Tree.node l a r, ctx⟩) hsucc.2 (by
          rw [hsucc.1]
          simp only [afterO, afterZ, List.length_cons, List.length_append] at hlen ⊢
          omega)
        rw [show rangeLoopItems key out hi (fuel + 1) (some ⟨Tree.node l a r, ctx⟩)
              = out a :: rangeLoopItems key out hi fuel (succZ ⟨Tree.node l a r, ctx⟩) by
              simp [rangeLoopItems, hha]]
        rw [hrec, hsucc.1]
        simp [afterO, afterZ, List.takeWhile_cons, hha]
      · simp only [rangeLoopItems, hha, if_false, afterO, afterZ]
        simp [List.takeWhile_cons, hha]

theorem takeWhile_eq_filter_sorted (hi : Int) (L : List A) (hs : KSorted key L) :
    L.takeWhile (fun a => decide (key a ≤ hi))
      = L.filter (fun a => decide (key a ≤ hi)) := by
  induction L with
  | nil => simp
  | cons a L ih =>
    have ha := (List.pairwise_cons.mp hs).1
    have hL := (List.pairwise_cons.mp hs).2
    by_cases h : key a ≤ hi
    · simp [List.takeWhile_cons, List.filter_cons, h, ih hL]
    · have hnil : L.filter (fun x => decide (key x ≤ hi)) = [] := by
        apply List.filter_eq_nil_iff.mpr
        intro x hx
        have := ha x hx
        simp only [decide_eq_true_eq]
        omega
      simp [List.takeWhile_cons, List.filter_cons, h, hnil]

/-- Range counting (`range_count`) is correct on any tree whose in-order
key sequence is strictly ascending: it returns the number of payloads with
`lo ≤ key ≤ hi`. -/
theorem range_count_correct (lo hi : Int) (t : Tree A) (hs : KSorted key t.inorder) :
    rangeLoopCount key hi t.size (lower_bound key lo t)
      = (t.inorder.filter (fun a => decide (lo ≤ key a) && decide (key a ≤ hi))).length := by
  obtain ⟨hafter, hfoc⟩ := lower_bound_after key lo t hs
  rw [rangeLoopCount_spec key hi t.size _ hfoc
    (by rw [hafter]; exact (List.length_filter_le _ _).trans (le_of_eq (Tree.length_inorder t)))]
  rw [hafter, takeWhile_eq_filter_sorted key hi _ (hs.filter _), List.filter_filter]
  rw [List.filter_congr (fun a _ => Bool.and_comm (decide (key a ≤ hi)) (decide (lo ≤ key a)))]

/-- Range collection (`range_items`) is correct on any tree whose in-order
key sequence is strictly ascending: it returns, in ascending key order,
exactly the in-range payloads (projected by `out`). -/
theorem range_items_correct {B : Type} (out : A → B) (lo hi : Int) (t : Tree A)
    (hs : KSorted key t.inorder) :
    rangeLoopItems key out hi t.size (lower_bound key lo t)
      = (t.inorder.filter (fun a => decide (lo ≤ key a) && decide (key a ≤ hi))).map out := by
  obtain ⟨hafter, hfoc⟩ := lower_bound_after key lo t hs
  rw [rangeLoopItems_spec key out hi t.size _ hfoc
    (by rw [hafter]; exact (List.length_filter_le _ _).trans (le_of_eq (Tree.length_inorder t)))]
  rw [hafter, takeWhile_eq_filter_sorted key hi _ (hs.filter _), List.filter_filter]
  rw [List.filter_congr (fun a _ => Bool.and_comm (decide (key a ≤ hi)) (decide (lo ≤ key a)))]

/-- Key-level specification of `lower_bound` on a strictly sorted tree:
`none` exactly when no key is ≥ the query; otherwise the returned node
holds the smallest key ≥ the query. -/
theorem lower_bound_spec (k : Int) (t : Tree A) (hs : KSorted key t.inorder) :
    (lower_bound key k t = none → ∀ b ∈ t.inorder, key b < k) ∧
    (∀ z, lower_bound key k t = some z →
      ∃ l a r c, z = ⟨Tree.node l a r, c⟩ ∧ a ∈ t.inorder ∧ k ≤ key a ∧
        ∀ b ∈ t.inorder, k ≤ key b → key a ≤ key b) := by
  obtain ⟨hafter, hfoc⟩ := lower_bound_after key k t hs
  constructor
  · intro hnone b hb
    rw [hnone] at hafter
    have := List.filter_eq_nil_iff.mp hafter.symm b hb
    simp only [decide_eq_true_eq] at this
    omega
  · intro z hz
    rw [hz] at hafter hfoc
    obtain ⟨focus, ctx⟩ := z
    cases focus with
    | nil => exact absurd rfl hfoc
    | node l a r =>
      refine ⟨l, a, r, ctx, rfl, ?_, ?_, ?_⟩
      · have : a ∈ List.filter (fun x => decide (k ≤ key x)) t.inorder := by
          rw [← hafter]; simp [afterO, afterZ]
        exact List.mem_of_mem_filter this
      · have : a ∈ List.filter (fun x => decide (k ≤ key x)) t.inorder := by
          rw [← hafter]; simp [afterO, afterZ]
        simpa using List.of_mem_filter this
      · intro b hb hkb
        have hbf : b ∈ List.filter (fun x => decide (k ≤ key x)) t.inorder :=
          List.mem_filter.mpr ⟨hb, by simpa using hkb⟩
        rw [← hafter] at hbf
        simp only [afterO, afterZ] at hbf
        cases hbf with
        | head => exact le_refl _
        | tail _ h =>
          have hps : (afterO (some ⟨Tree.node l a r, ctx⟩)).Pairwise
              (fun x y => key x < key y) := by
            rw [hafter]; exact hs.filter _
          simp only [afterO, afterZ] at hps
          exact le_of_lt ((List.pairwise_cons.mp hps).1 b h)

/-- The node returned by `lower_bound` always has key ≥ the query (no
hypotheses needed: the candidate is only ever overwritten at such a node). -/
theorem lbAux_key_ge (k : Int) (t : Tree A) :
    ∀ (ctx : Ctx A) (res : Option (Zipper A)),
    (∀ l a r c, res = some ⟨Tree.node l a r, c⟩ → k ≤ key a) →
    ∀ l a r c, lbAux key k t ctx res = some ⟨Tree.node l a r, c⟩ → k ≤ key a := by
  induction t with
  | nil => intro ctx res hres l a r c h; exact hres l a r c (by simpa [lbAux] using h)
  | node tl ta tr ihl ihr =>
    intro ctx res hres l a r c h
    by_cases hka : key ta ≥ k
    · refine ihl _ _ ?_ l a r c (by simpa [lbAux, hka] using h)
      intro l0 a0 r0 c0 he
      obtain ⟨h1, h2⟩ := by simpa using he
      rw [← h1.2.1]
      exact hka
    · exact ihr _ _ hres l a r c (by simpa [lbAux, not_le.mpr (not_le.mp hka)] using h)

end Traversal

section HeightStack

variable {A : Type}

/-- `stack.append((child, h+1))`, guarded by `if node.left/right is not None`:
only real nodes are ever pushed. -/
def pushChild (t : Tree A) (h : Nat) (st : List (Tree A × Nat)) : List (Tree A × Nat) :=
  match t with
  | Tree.nil => st
  | Tree.node l a r => (Tree.node l a r, h) :: st

/-- Termination measure for the explicit-stack height loop. -/
def stackMeasure : List (Tree A × Nat) → Nat
| [] => 0
| (t, _) :: st => 2 * t.size + 1 + stackMeasure st

theorem stackMeasure_pushChild (t : Tree A) (h : Nat) (st : List (Tree A × Nat)) :
    stackMeasure (pushChild t h st) ≤ 2 * t.size + 1 + stackMeasure st := by
  cases t with
  | nil => simp only [pushChild, Tree.size]; omega
  | node l a r => simp [pushChild, stackMeasure]

/-- The explicit-stack loop of `height()` in `pages/06_tree_benchmark.py`
(both `BST.height` and `RBTree.height`):

    maxh = 0; stack = [(self.root, 1)]
    while stack:
        node, h = stack.pop()
        if h > maxh: maxh = h
        if node.left is not None: stack.append((node.left, h + 1))
        if node.right is not None: stack.append((node.right, h + 1))

The computed maximum does not depend on which end of the worklist is
popped, so the translation pops at the head.  The `(nil, _)` branch is
unreachable (only real nodes are pushed). -/
def hstack : List (Tree A × Nat) → Nat → Nat
| [], maxh => maxh
| (Tree.nil, _) :: st, maxh => hstack st maxh
| (Tree.node l _ r, h) :: st, maxh =>
    hstack (pushChild r (h + 1) (pushChild l (h + 1) st)) (if h > maxh then h else maxh)
termination_by st _ => stackMeasure st
decreasing_by
· simp only [stackMeasure]; omega
· have h1 := stackMeasure_pushChild r (h + 1) (pushChild l (h + 1) st)
  have h2 := stackMeasure_pushChild l (h + 1) st
  simp only [stackMeasure, Tree.size] at h1 h2 ⊢
  omega

/-- The iterative `height()`: `0` for an empty tree, else run the stack
loop from `[(root, 1)]`. -/
def heightIter : Tree A → Nat
| Tree.nil => 0
| Tree.node l a r => hstack [(Tree.node l a r, 1)] 0

/-- The recursive `height()` of `pages/pages/06_tree_benchmark.py`:
`def h(x): if x is None: return 0; return 1 + max(h(x.left), h(x.right))`. -/
def heightRec : Tree A → Nat
| Tree.nil => 0
| Tree.node l _ r => 1 + max (heightRec l) (heightRec r)

/-- Maximum depth still recorded in a worklist state. -/
def stackMax : List (Tree A × Nat) → Nat
| [] => 0
| (Tree.nil, _) :: st => stackMax st
| (Tree.node l _ r, h) :: st => max (h + max (l.heightN) (r.heightN)) (stackMax st)

theorem stackMax_pushChild (t : Tree A) (h : Nat) (st : List (Tree A × Nat)) :
    stackMax (pushChild t (h + 1) st) = max (h + t.heightN) (stackMax st) ∨
    (t = Tree.nil ∧ stackMax (pushChild t (h + 1) st) = stackMax st) := by
  cases t with
  | nil => right; exact ⟨rfl, rfl⟩
  | node l a r =>
    left
    simp only [pushChild, stackMax, Tree.heightN]
    omega

theorem hstack_eq (st : List (Tree A × Nat)) (m : Nat) :
    hstack st m = max m (stackMax st) := by
  induction st, m using hstack.induct with
  | case1 m => simp [hstack, stackMax]
  | case2 h st m ih => simpa [hstack, stackMax] using ih
  | case3 l a r h st m ih =>
    simp only [hstack]
    simp only [dite_eq_ite] at ih
    rw [ih]
    have hif : (if h > m then h else m) = max m h := by split <;> omega
    have hl := stackMax_pushChild l h st
    have hr := stackMax_pushChild r h (pushChild l (h + 1) st)
    rcases hl with hl | ⟨hlnil, hl⟩ <;> rcases hr with hr | ⟨hrnil, hr⟩ <;>
      simp only [stackMax, Tree.heightN, hif, hl, hr] <;>
      [skip; (subst hrnil; simp only [Tree.heightN]); (subst hlnil; simp only [Tree.heightN]);
       (subst hlnil; subst hrnil; simp only [Tree.heightN])] <;>
      omega

theorem heightIter_eq_heightN (t : Tree A) : heightIter t = t.heightN := by
  cases t with
  | nil => rfl
  | node l a r =>
    rw [heightIter, hstack_eq]
    simp [stackMax, Tree.heightN]

theorem heightRec_eq_heightN (t : Tree A) : heightRec t = t.heightN := by
  induction t with
  | nil => rfl
  | node l a r ihl ihr => simp [heightRec, Tree.heightN, ihl, ihr]

end HeightStack

section ListSpec

variable {V : Type}

/-- Key of a `(key, value)` pair. -/
def keyP (a : Int × V) : Int := a.1

/-- List-level effect, on the ascending in-order pair sequence, of one
update-on-match insert (`BST.insert` of the benchmark, `RBTree.insert` of
the dashboard): overwrite the value at an exact key match, else place the
new pair in front of the first strictly larger key. -/
def lupdIns (k : Int) (v : V) : List (Int × V) → List (Int × V)
| [] => [(k, v)]
| a :: L =>
  if k = a.1 then (a.1, v) :: L
  else if k < a.1 then (k, v) :: a :: L
  else a :: lupdIns k v L

/-- List-level effect of the benchmark `RBTree.insert` descent
(`x = x.l if k < x.k else x.r`): always insert a fresh pair, after every
key ≤ the new key. -/
def lins (k : Int) (v : V) : List (Int × V) → List (Int × V)
| [] => [(k, v)]
| a :: L => if k < a.1 then (k, v) :: a :: L else a :: lins k v L

theorem lupdIns_append_gt (k : Int) (v : V) (L1 L2 : List (Int × V))
    (h : ∀ x ∈ L1, x.1 < k) : lupdIns k v (L1 ++ L2) = L1 ++ lupdIns k v L2 := by
  induction L1 with
  | nil => simp
  | cons a L1 ih =>
    have ha := h a (by simp)
    have hne : ¬ k = a.1 := by omega
    have hnlt : ¬ k < a.1 := by omega
    simp only [List.cons_append, lupdIns, hne, hnlt, if_false, List.append_eq]
    rw [ih (fun x hx => h x (by simp [hx]))]

theorem lupdIns_append_lt (k : Int) (v : V) (b : Int × V) (L1 L2 : List (Int × V))
    (h : k < b.1) : lupdIns k v (L1 ++ b :: L2) = lupdIns k v L1 ++ b :: L2 := by
  induction L1 with
  | nil =>
    have hne : ¬ k = b.1 := by omega
    simp [lupdIns, h, hne]
  | cons a L1 ih =>
    by_cases h1 : k = a.1
    · simp [lupdIns, h1]
    · by_cases h2 : k < a.1
      · simp [lupdIns, h1, h2]
      · simp only [List.cons_append, lupdIns, h1, h2, if_false, List.append_eq]
        rw [ih]

theorem lupdIns_key_mem (k : Int) (v : V) (L : List (Int × V)) :
    ∀ y ∈ lupdIns k v L, y.1 = k ∨ y.1 ∈ L.map Prod.fst := by
  induction L with
  | nil => intro y hy; simp [lupdIns] at hy; simp [hy]
  | cons a L ih =>
    intro y hy
    by_cases h1 : k = a.1
    · simp only [lupdIns, h1, if_true] at hy
      rcases List.mem_cons.mp hy with h | h
      · left; rw [h, h1]
      · right
        simp only [List.map_cons, List.mem_cons]
        right
        exact List.mem_map_of_mem Prod.fst h
    · by_cases h2 : k < a.1
      · simp only [lupdIns, h1, h2, if_true, if_false] at hy
        rcases List.mem_cons.mp hy with h | h
        · left; rw [h]
        · right
          rcases List.mem_cons.mp h with h3 | h3
          · simp only [List.map_cons, List.mem_cons]; left; rw [h3]
          · simp only [List.map_cons, List.mem_cons]; right
            exact List.mem_map_of_mem Prod.fst h3
      · simp only [lupdIns, h1, h2, if_false] at hy
        rcases List.mem_cons.mp hy with h | h
        · right; simp only [List.map_cons, List.mem_cons]; left; rw [h]
        · rcases ih y h with h3 | h3
          · left; exact h3
          · right; simp only [List.map_cons, List.mem_cons]; right; exact h3

theorem KSorted_lupdIns (k : Int) (v : V) (L : List (Int × V))
    (hs : KSorted keyP L) : KSorted keyP (lupdIns k v L) := by
  induction L with
  | nil => simp [lupdIns, KSorted]
  | cons a L ih =>
    have ha := (List.pairwise_cons.mp hs).1
    have hL := (List.pairwise_cons.mp hs).2
    by_cases h1 : k = a.1
    · simp only [lupdIns, h1, if_true]
      exact List.pairwise_cons.mpr ⟨fun y hy => ha y hy, hL⟩
    · by_cases h2 : k < a.1
      · simp only [lupdIns, h1, h2, if_true, if_false]
        refine List.pairwise_cons.mpr ⟨?_, hs⟩
        intro y hy
        rcases List.mem_cons.mp hy with h | h
        · rw [h]; simpa [keyP] using h2
        · have := ha y h
          simp only [keyP] at this ⊢
          omega
      · simp only [lupdIns, h1, h2, if_false]
        refine List.pairwise_cons.mpr ⟨?_, ih hL⟩
        intro y hy
        rcases lupdIns_key_mem k v L y hy with h | h
        · simp only [keyP]; omega
        · obtain ⟨x, hx, hxy⟩ := List.mem_map.mp h
          have := ha x hx
          simp only [keyP] at this ⊢
          omega

/-- On a strictly sorted list, `lupdIns` at a key NOT already present is a
pure sorted insertion, and coincides with `lins`. -/
theorem lupdIns_eq_lins (k : Int) (v : V) (L : List (Int × V))
    (h : k ∉ L.map Prod.fst) : lupdIns k v L = lins k v L := by
  induction L with
  | nil => rfl
  | cons a L ih =>
    have h1 : ¬ k = a.1 := by
      intro hc
      exact h (by simp only [List.map_cons, List.mem_cons]; left; exact hc)
    have h2 : k ∉ L.map Prod.fst := by
      intro hc
      exact h (by simp only [List.map_cons, List.mem_cons]; right; exact hc)
    by_cases h3 : k < a.1
    · simp [lupdIns, lins, h1, h3]
    · simp only [lupdIns, lins, h1, h3, if_false]
      rw [ih h2]

/-- On a strictly sorted list, `lupdIns` at a key already present changes
only the value stored at that key: it is a pointwise value replacement. -/
theorem lupdIns_eq_map_of_mem (k : Int) (v : V) (L : List (Int × V))
    (hs : KSorted keyP L) (h : k ∈ L.map Prod.fst) :
    lupdIns k v L = L.map (fun a => if a.1 = k then (k, v) else a) := by
  induction L with
  | nil => simp at h
  | cons a L ih =>
    have ha := (List.pairwise_cons.mp hs).1
    have hL := (List.pairwise_cons.mp hs).2
    by_cases h1 : k = a.1
    · have htail : L.map (fun x => if x.1 = a.1 then (a.1, v) else x) = L := by
        have hx : ∀ x ∈ L, (if x.1 = a.1 then (a.1, v) else x) = x := by
          intro x hx
          have := ha x hx
          simp only [keyP] at this
          exact if_neg (by omega)
        calc L.map (fun x => if x.1 = a.1 then (a.1, v) else x) = L.map id :=
              List.map_congr_left hx
          _ = L := List.map_id L
      simp only [lupdIns, h1, if_true, List.map_cons, htail]
    · have h2 : ¬ k < a.1 := by
        intro hc
        simp only [List.map_cons, List.mem_cons] at h
        rcases h with h | h
        · omega
        · obtain ⟨x, hx, hxk⟩ := List.mem_map.mp h
          have := ha x hx
          simp only [keyP] at this
          omega
      simp only [lupdIns, h1, h2, if_false, List.map_cons]
      rw [if_neg (by omega), ih hL (by
        simp only [List.map_cons, List.mem_cons] at h
        rcases h with h | h
        · exact absurd h h1
        · exact h)]

theorem length_lupdIns_of_mem (k : Int) (v : V) (L : List (Int × V))
    (hs : KSorted keyP L) (h : k ∈ L.map Prod.fst) :
    (lupdIns k v L).length = L.length := by
  rw [lupdIns_eq_map_of_mem k v L hs h, List.length_map]

theorem length_lins (k : Int) (v : V) (L : List (Int × V)) :
    (lins k v L).length = L.length + 1 := by
  induction L with
  | nil => rfl
  | cons a L ih =>
    by_cases h : k < a.1
    · simp [lins, h]
    · simp [lins, h, ih]

theorem lins_append_gt (k : Int) (v : V) (L1 L2 : List (Int × V))
    (h : ∀ x ∈ L1, ¬ k < x.1) : lins k v (L1 ++ L2) = L1 ++ lins k v L2 := by
  induction L1 with
  | nil => simp
  | cons a L1 ih =>
    have ha := h a (by simp)
    simp only [List.cons_append, lins, ha, if_false, List.append_eq]
    rw [ih (fun x hx => h x (by simp [hx]))]

theorem lins_append_lt (k : Int) (v : V) (b : Int × V) (L1 L2 : List (Int × V))
    (h : k < b.1) : lins k v (L1 ++ b :: L2) = lins k v L1 ++ b :: L2 := by
  induction L1 with
  | nil => simp [lins, h]
  | cons a L1 ih =>
    by_cases h2 : k < a.1
    · simp [lins, h2]
    · simp only [List.cons_append, lins, h2, if_false, List.append_eq]
      rw [ih]

end ListSpec

section Traversal2

variable {A : Type} (key : A → Int)

/-- Sortedness of a node's in-order sequence decomposes into the classical
search-tree conditions. -/
theorem KSorted_node (l r : Tree A) (a : A)
    (hs : KSorted key (Tree.node l a r).inorder) :
    KSorted key l.inorder ∧ KSorted key r.inorder ∧
    (∀ x ∈ l.inorder, key x < key a) ∧ (∀ y ∈ r.inorder, key a < key y) := by
  have h0 : (l.inorder ++ a :: r.inorder).Pairwise (fun x y => key x < key y) := hs
  have h1 := List.pairwise_append.mp h0
  refine ⟨h1.1, (List.pairwise_cons.mp h1.2.1).2, ?_, (List.pairwise_cons.mp h1.2.1).1⟩
  intro x hx
  exact h1.2.2 x hx a (by simp)

theorem rangeLoopCount_none (hi : Int) (fuel : Nat) :
    rangeLoopCount key hi fuel none = 0 := by
  cases fuel <;> rfl

theorem rangeLoopItems_none {B : Type} (out : A → B) (hi : Int) (fuel : Nat) :
    rangeLoopItems key out hi fuel none = [] := by
  cases fuel <;> rfl

/-- With an inverted range (`lo > hi`) the counting loop exits on its
first test, whatever the tree: the lower bound, when it exists, already
has key ≥ lo > hi. -/
theorem rangeLoopCount_inverted (lo hi : Int) (t : Tree A) (fuel : Nat) (h : hi < lo) :
    rangeLoopCount key hi fuel (lower_bound key lo t) = 0 := by
  have hk := lbAux_key_ge key lo t [] none (fun l a r c hc => nomatch hc)
  cases hlb : lower_bound key lo t with
  | none => exact rangeLoopCount_none key hi fuel
  | some z =>
    obtain ⟨focus, ctx⟩ := z
    cases focus with
    | nil => cases fuel <;> rfl
    | node l a r =>
      have hka : lo ≤ key a := hk l a r ctx hlb
      cases fuel with
      | zero => rfl
      | succ fuel =>
        simp only [rangeLoopCount]
        rw [if_neg (by omega)]

/-- Same for the collecting loop. -/
theorem rangeLoopItems_inverted {B : Type} (out : A → B) (lo hi : Int) (t : Tree A)
    (fuel : Nat) (h : hi < lo) :
    rangeLoopItems key out hi fuel (lower_bound key lo t) = [] := by
  have hk := lbAux_key_ge key lo t [] none (fun l a r c hc => nomatch hc)
  cases hlb : lower_bound key lo t with
  | none => exact rangeLoopItems_none key out hi fuel
  | some z =>
    obtain ⟨focus, ctx⟩ := z
    cases focus with
    | nil => cases fuel <;> rfl
    | node l a r =>
      have hka : lo ≤ key a := hk l a r ctx hlb
      cases fuel with
      | zero => rfl
      | succ fuel =>
        simp only [rangeLoopItems]
        rw [if_neg (by omega)]

end Traversal2

namespace BST

variable {V : Type}

/-- `BST.insert(k, v)` (`pages/06_tree_benchmark.py` lines 66-80): if the
tree is empty the new node becomes the root; otherwise descend comparing
keys, overwriting the value on an exact match (`if k == cur.k: cur.v = v;
return` — no node created) and attaching a new node at the empty child
slot reached otherwise.  The source's iterative loop with a `parent`
variable is this same descent written with explicit state. -/
def insert : Tree (Int × V) → Int → V → Tree (Int × V)
| Tree.nil, k, v => Tree.node Tree.nil (k, v) Tree.nil
| Tree.node l a r, k, v =>
  if k = a.1 then Tree.node l (a.1, v) r
  else if k < a.1 then Tree.node (insert l k v) a r
  else Tree.node l a (insert r k v)

/-- The benchmark build loop `bst = BST(); for k, v in items: bst.insert(k, v)`. -/
def build (items : List (Int × V)) : Tree (Int × V) :=
  items.foldl (fun t kv => insert t kv.1 kv.2) Tree.nil

/-- `BST.lower_bound(k)` (lines 82-90): instance of the shared descent. -/
def lower_bound (k : Int) (t : Tree (Int × V)) : Option (Zipper (Int × V)) :=
  Yongin.lower_bound keyP k t

/-- `BST.range_count(lo, hi)` (lines 105-111): count successors from the
lower bound while the key stays ≤ hi. -/
def range_count (lo hi : Int) (t : Tree (Int × V)) : Nat :=
  rangeLoopCount keyP hi t.size (lower_bound lo t)

/-- `BST.height()` (lines 113-124): iterative, explicit stack. -/
def height (t : Tree (Int × V)) : Nat := heightIter t

theorem inorder_insert (k : Int) (v : V) (t : Tree (Int × V))
    (hs : KSorted keyP t.inorder) :
    (insert t k v).inorder = lupdIns k v t.inorder := by
  induction t with
  | nil => rfl
  | node l a r ihl ihr =>
    obtain ⟨hsl, hsr, hla, har⟩ := KSorted_node keyP l r a hs
    by_cases h1 : k = a.1
    · rw [show insert (Tree.node l a r) k v = Tree.node l (a.1, v) r by
        simp [insert, h1]]
      rw [show (Tree.node l a r).inorder = l.inorder ++ a :: r.inorder from rfl]
      rw [lupdIns_append_gt k v l.inorder (a :: r.inorder)
        (fun x hx => by have := hla x hx; simp only [keyP] at this; omega)]
      simp [Tree.inorder, lupdIns, h1]
    · by_cases h2 : k < a.1
      · rw [show insert (Tree.node l a r) k v = Tree.node (insert l k v) a r by
          simp [insert, h1, h2]]
        rw [show (Tree.node l a r).inorder = l.inorder ++ a :: r.inorder from rfl]
        rw [lupdIns_append_lt k v a l.inorder r.inorder (by simpa [keyP] using h2)]
        simp [Tree.inorder, ihl hsl]
      · rw [show insert (Tree.node l a r) k v = Tree.node l a (insert r k v) by
          simp [insert, h1, h2]]
        rw [show (Tree.node l a r).inorder = l.inorder ++ a :: r.inorder from rfl]
        rw [show l.inorder ++ a :: r.inorder = (l.inorder ++ [a]) ++ r.inorder by simp]
        rw [lupdIns_append_gt k v (l.inorder ++ [a]) r.inorder (by
          intro x hx
          rcases List.mem_append.mp hx with hx | hx
          · have := hla x hx; simp only [keyP] at this; omega
          · have : x = a := by simpa using hx
            rw [this]; omega)]
        simp [Tree.inorder, ihr hsr]

theorem build_aux (items : List (Int × V)) :
    ∀ (t : Tree (Int × V)), KSorted keyP t.inorder →
    (items.foldl (fun t kv => insert t kv.1 kv.2) t).inorder
      = items.foldl (fun L kv => lupdIns kv.1 kv.2 L) t.inorder ∧
    KSorted keyP (items.foldl (fun t kv => insert t kv.1 kv.2) t).inorder := by
  induction items with
  | nil => intro t hs; exact ⟨rfl, hs⟩
  | cons kv items ih =>
    intro t hs
    have h1 : (insert t kv.1 kv.2).inorder = lupdIns kv.1 kv.2 t.inorder :=
      inorder_insert kv.1 kv.2 t hs
    have h2 : KSorted keyP (insert t kv.1 kv.2).inorder := by
      rw [h1]; exact KSorted_lupdIns kv.1 kv.2 t.inorder hs
    have := ih (insert t kv.1 kv.2) h2
    refine ⟨?_, by simpa [List.foldl_cons] using this.2⟩
    rw [List.foldl_cons, List.foldl_cons, this.1, h1]

theorem inorder_build (items : List (Int × V)) :
    (build items).inorder = items.foldl (fun L kv => lupdIns kv.1 kv.2 L) [] :=
  (build_aux items Tree.nil (by simp [Tree.inorder, KSorted])).1

theorem sorted_build (items : List (Int × V)) :
    KSorted keyP (build items).inorder :=
  (build_aux items Tree.nil (by simp [Tree.inorder, KSorted])).2

end BST

namespace RBT

variable {V : Type}

/-- RBT node payload: `(color, key, value)` — the `c, k, v` fields of
`RBNode`; the `l, r, p` pointers are the tree structure and zipper
context. -/
abbrev P (V : Type) := Color × Int × V

def keyR (a : P V) : Int := a.2.1

/-- The `(key, value)` pair of a payload. -/
def kv (a : P V) : Int × V := (a.2.1, a.2.2)

/-- Color of the node a pointer references.  The sentinel `self.nil` is
constructed BLACK (`RBNode(c=BLACK)`) and is never recolored. -/
def cOf : Tree (P V) → Color
| Tree.nil => Color.black
| Tree.node _ a _ => a.1

/-- Recolor a subtree root BLACK (`self.root.c = BLACK`, `z.p.c = BLACK`,
`u.c = BLACK`); no effect on the sentinel. -/
def blacken : Tree (P V) → Tree (P V)
| Tree.nil => Tree.nil
| Tree.node l a r => Tree.node l (Color.black, a.2.1, a.2.2) r

/-- `_lrot(x)` / `_left_rotate(x)`, restricted to the rotated subtree: the
pivot's right child `y` replaces `x`, `x` becomes `y`'s left child, and
`y`'s old left subtree becomes `x`'s right child.  The source's pointer
bookkeeping (`y.l.p = x`; `y.p = x.p`; `x.p.l/r = y`, or `self.root = y`
when `x.p` is the sentinel; `x.p = y`) is exactly the re-plugging of the
rotated subtree into the unchanged context.  The fall-through branch is
unreachable: the fixup only rotates a node whose pivot-side child is a
real node. -/
def lrot : Tree (P V) → Tree (P V)
| Tree.node a x (Tree.node b y c) => Tree.node (Tree.node a x b) y c
| t => t

/-- `_rrot(x)` / `_right_rotate(x)`: mirror image of `lrot`. -/
def rrot : Tree (P V) → Tree (P V)
| Tree.node (Tree.node a y b) x c => Tree.node a y (Tree.node b x c)
| t => t

/-- The insertion descent (benchmark lines 166-173, dashboard lines
176-188): `while x != self.nil: y = x; x = x.l if k < x.k else x.r`
(equal keys go right), recording the ancestor frames of the empty slot
that the new node will occupy (`z.p = y`). -/
def descend (k : Int) : Tree (P V) → Ctx (P V) → Ctx (P V)
| Tree.nil, ctx => ctx
| Tree.node l a r, ctx =>
  if k < a.2.1 then descend k l (Frame.left a r :: ctx)
  else descend k r (Frame.right a l :: ctx)

/-- `z.p.c`: the color stored in the parent frame. -/
def frameColor : Frame (P V) → Color
| Frame.left a _ => a.1
| Frame.right a _ => a.1

/-- Case-1 recoloring `z.p.c = BLACK`, rebuilding the parent node with `z`
still in its place. -/
def blackParent (z : Tree (P V)) : Frame (P V) → Tree (P V)
| Frame.left a sib => Tree.node z (Color.black, a.2.1, a.2.2) sib
| Frame.right a sib => Tree.node sib (Color.black, a.2.1, a.2.2) z

/-- `_fix(z)` / `_insert_fixup(z)` (benchmark lines 176-200, dashboard
lines 192-222 — the same algorithm, up to variable names):

    while z.p.c == RED:
        if z.p == z.p.p.l:
            u = z.p.p.r
            if u.c == RED:                      # case 1
                z.p.c = BLACK; u.c = BLACK; z.p.p.c = RED; z = z.p.p
            else:
                if z == z.p.r: z = z.p; self._lrot(z)          # case 2
                z.p.c = BLACK; z.p.p.c = RED; self._rrot(z.p.p) # case 3
        else: (mirror)
    self.root.c = BLACK

The loop state `z` is the zipper `(z, ctx)`.  The head frame is `z.p`, the
second frame is `z.p.p`, and its sibling subtree is the uncle `u`.  Case 1
rebuilds the recolored grandparent subtree and continues two frames up.
After cases 2/3 the new parent of `z` is the BLACK root of the rotated
subtree, so the loop test fails and the loop exits: the translation plugs
the rotated subtree back and blackens the root.  A RED head frame with no
second frame would make the source rotate the sentinel; that state is
unreachable (a red parent is never the root) and is translated as loop
exit. -/
def fixup : Tree (P V) → Ctx (P V) → Tree (P V)
| z, [] => blacken z
| z, f1 :: ctx1 =>
  match frameColor f1 with
  | Color.black => blacken (plug z (f1 :: ctx1))
  | Color.red =>
    match ctx1 with
    | [] => blacken (plug z (f1 :: ctx1))
    | f2 :: rest =>
      match f2 with
      | Frame.left (_, k2, v2) u =>
        match cOf u with
        | Color.red =>
          fixup (Tree.node (blackParent z f1) (Color.red, k2, v2) (blacken u)) rest
        | Color.black =>
          match f1 with
          | Frame.left (_, k1, v1) s1 =>
            blacken (plug (rrot (Tree.node (Tree.node z (Color.black, k1, v1) s1)
              (Color.red, k2, v2) u)) rest)
          | Frame.right (_, k1, v1) s1 =>
            blacken (plug (rrot (Tree.node
              (blacken (lrot (Tree.node s1 (Color.red, k1, v1) z)))
              (Color.red, k2, v2) u)) rest)
      | Frame.right (_, k2, v2) u =>
        match cOf u with
        | Color.red =>
          fixup (Tree.node (blacken u) (Color.red, k2, v2) (blackParent z f1)) rest
        | Color.black =>
          match f1 with
          | Frame.right (_, k1, v1) s1 =>
            blacken (plug (lrot (Tree.node u (Color.red, k2, v2)
              (Tree.node s1 (Color.black, k1, v1) z))) rest)
          | Frame.left (_, k1, v1) s1 =>
            blacken (plug (lrot (Tree.node u (Color.red, k2, v2)
              (blacken (rrot (Tree.node z (Color.red, k1, v1) s1))))) rest)

/-- Benchmark `RBTree.insert(k, v)` (lines 163-174): always allocate a
fresh RED node with sentinel children (`z.l = z.r = z.p = self.nil`), link
it at the empty slot reached by the descent, then `self._fix(z)`.  There
is NO duplicate-key check: an equal key descends right and a new node is
created. -/
def insert (t : Tree (P V)) (k : Int) (v : V) : Tree (P V) :=
  fixup (Tree.node Tree.nil (Color.red, k, v) Tree.nil) (descend k t [])

/-- `RBTree._find(key)` (`BST.py` lines 159-165), reduced to whether a
node was found (`!= self.nil`). -/
def findB (k : Int) : Tree (P V) → Bool
| Tree.nil => false
| Tree.node l a r =>
  if k = a.2.1 then true
  else if k < a.2.1 then findB k l else findB k r

/-- `ex.v = value` on the node `_find` returned: the same descent as
`_find`, with the landed-on node's value overwritten in place. -/
def setval (k : Int) (v : V) : Tree (P V) → Tree (P V)
| Tree.nil => Tree.nil
| Tree.node l a r =>
  if k = a.2.1 then Tree.node l (a.1, a.2.1, v) r
  else if k < a.2.1 then Tree.node (setval k v l) a r
  else Tree.node l a (setval k v r)

/-- Dashboard `RBTree.insert(key, value)` (`BST.py` lines 167-190):
`_find` first and update the value on a duplicate ("중복이면 업데이트"),
otherwise the same RED-node CLRS insertion as the benchmark (the
else-branch is textually the benchmark insert). -/
def insertD (t : Tree (P V)) (k : Int) (v : V) : Tree (P V) :=
  if findB k t then setval k v t else insert t k v

/-- The benchmark build loop `rbt = RBTree(); for k, v in items: rbt.insert(k, v)`. -/
def build (items : List (Int × V)) : Tree (P V) :=
  items.foldl (fun t kv => insert t kv.1 kv.2) Tree.nil

/-- The dashboard build loop (`get_tree_month` / `get_tree_year`):
`t = RBTree(); for k, v in ...: t.insert(k, v)`. -/
def buildD (items : List (Int × V)) : Tree (P V) :=
  items.foldl (fun t kv => insertD t kv.1 kv.2) Tree.nil

/-- `RBTree.lower_bound(k)` (benchmark lines 202-210, dashboard lines
238-247): instance of the shared descent; the sentinel result is `none`. -/
def lower_bound (k : Int) (t : Tree (P V)) : Option (Zipper (P V)) :=
  Yongin.lower_bound keyR k t

/-- Benchmark `RBTree.range_count(lo, hi)` (lines 225-231). -/
def range_count (lo hi : Int) (t : Tree (P V)) : Nat :=
  rangeLoopCount keyR hi t.size (lower_bound lo t)

/-- Dashboard `RBTree.range_items(lo, hi)` (`BST.py` lines 249-255):
collecting form, appending `(x.k, x.v)` per visited node. -/
def range_items (lo hi : Int) (t : Tree (P V)) : List (Int × V) :=
  rangeLoopItems keyR kv hi t.size (lower_bound lo t)

/-- Benchmark `RBTree.height()` (lines 233-243): iterative, explicit
stack, sentinel comparisons for the stopping condition. -/
def height (t : Tree (P V)) : Nat := heightIter t

/-- The `(key, value)` content of the tree in ascending in-order. -/
def pairs (t : Tree (P V)) : List (Int × V) := t.inorder.map kv

/-- Invariant (b): no RED node has a RED child. -/
def RedOK : Tree (P V) → Prop
| Tree.nil => True
| Tree.node l a r =>
  (a.1 = Color.red → cOf l = Color.black ∧ cOf r = Color.black) ∧ RedOK l ∧ RedOK r

/-- Invariant (c): every root-to-sentinel path passes the same number `n`
of BLACK nodes (black-height uniformity). -/
inductive Bal : Tree (P V) → Nat → Prop
| nil : Bal Tree.nil 0
| red {l r : Tree (P V)} {n : Nat} {k : Int} {v : V} :
    Bal l n → Bal r n → Bal (Tree.node l (Color.red, k, v) r) n
| black {l r : Tree (P V)} {n : Nat} {k : Int} {v : V} :
    Bal l n → Bal r n → Bal (Tree.node l (Color.black, k, v) r) (n + 1)

/-- The red-black invariants of a whole tree: BLACK root, no red-red
violation, uniform black-height. -/
def RBInv (t : Tree (P V)) : Prop :=
  cOf t = Color.black ∧ RedOK t ∧ ∃ n, Bal t n

/-- Number of BLACK nodes on each root-to-sentinel path, one entry per
path, left to right. -/
def pathBlacks : Tree (P V) → List Nat
| Tree.nil => [0]
| Tree.node l a r =>
    (pathBlacks l ++ pathBlacks r).map
      (fun m => m + (match a.1 with | Color.black => 1 | Color.red => 0))

def sibOf : Frame (P V) → Tree (P V)
| Frame.left _ s => s
| Frame.right _ s => s

/-- The head of a context is a BLACK frame (or the context is empty:
the focus is the root). -/
def headBlackC : Ctx (P V) → Prop
| [] => True
| f :: _ => frameColor f = Color.black

/-- Validity of an insertion-path context whose hole expects a subtree of
black-height `n`: every sibling subtree is internally valid with the right
black-height, and a RED frame has a BLACK sibling root and a BLACK parent
frame above it (in a valid tree a red node is never the root and never has
a red parent or child). -/
def CtxOK : Ctx (P V) → Nat → Prop
| [], _ => True
| f :: ctx, n =>
  RedOK (sibOf f) ∧ Bal (sibOf f) n ∧
  (match frameColor f with
   | Color.black => CtxOK ctx (n + 1)
   | Color.red => cOf (sibOf f) = Color.black ∧
       (∃ g ctx2, ctx = g :: ctx2 ∧ frameColor g = Color.black) ∧ CtxOK ctx n)

theorem RedOK_node {l r : Tree (P V)} {a : P V} :
    RedOK (Tree.node l a r) ↔
      (a.1 = Color.red → cOf l = Color.black ∧ cOf r = Color.black) ∧
      RedOK l ∧ RedOK r :=
  Iff.rfl

theorem cOf_blacken (t : Tree (P V)) : cOf (blacken t) = Color.black := by
  cases t <;> rfl

theorem RedOK_blacken {t : Tree (P V)} (h : RedOK t) : RedOK (blacken t) := by
  cases t with
  | nil => trivial
  | node l a r =>
    obtain ⟨_, hl, hr⟩ := RedOK_node.mp h
    exact RedOK_node.mpr ⟨(fun hc => nomatch hc), hl, hr⟩

theorem Bal_blacken {t : Tree (P V)} {n : Nat} (h : Bal t n) :
    ∃ m, Bal (blacken t) m := by
  cases h with
  | nil => exact ⟨0, Bal.nil⟩
  | red hl hr => exact ⟨_, Bal.black hl hr⟩
  | black hl hr => exact ⟨_, Bal.black hl hr⟩

theorem Bal_blacken_red {t : Tree (P V)} {n : Nat} (h : Bal t n)
    (hc : cOf t = Color.red) : Bal (blacken t) (n + 1) := by
  cases h with
  | nil => exact absurd hc (by simp [cOf])
  | red hl hr => exact Bal.black hl hr
  | black hl hr => exact absurd hc (by simp [cOf])

theorem Bal_pathBlacks {t : Tree (P V)} {n : Nat} (h : Bal t n) :
    ∀ m ∈ pathBlacks t, m = n := by
  induction h with
  | nil => intro m hm; simpa [pathBlacks] using hm
  | red hl hr ihl ihr =>
    intro m hm
    simp only [pathBlacks, List.mem_map, List.mem_append] at hm
    obtain ⟨m0, hm0, hsum⟩ := hm
    rcases hm0 with h0 | h0
    · have := ihl m0 h0; omega
    · have := ihr m0 h0; omega
  | black hl hr ihl ihr =>
    intro m hm
    simp only [pathBlacks, List.mem_map, List.mem_append] at hm
    obtain ⟨m0, hm0, hsum⟩ := hm
    rcases hm0 with h0 | h0
    · have := ihl m0 h0; omega
    · have := ihr m0 h0; omega

/-- Plugging a valid subtree into a valid context yields a tree with no
red-red violation and a uniform black-height. -/
theorem plug_ok : ∀ (ctx : Ctx (P V)) (t : Tree (P V)) (n : Nat),
    CtxOK ctx n → RedOK t → Bal t n →
    (cOf t = Color.red → headBlackC ctx) →
    RedOK (plug t ctx) ∧ ∃ m, Bal (plug t ctx) m := by
  intro ctx
  induction ctx with
  | nil => intro t n _ hr hb _; exact ⟨hr, n, hb⟩
  | cons f ctx ih =>
    intro t n hctx hr hb hred
    obtain ⟨hrs, hbs, hcol⟩ := hctx
    cases f with
    | left a sib =>
      obtain ⟨c, k1, v1⟩ := a
      cases c with
      | black =>
        simp only [frameColor] at hcol
        refine ih (Tree.node t (Color.black, k1, v1) sib) (n + 1) hcol
          (RedOK_node.mpr ⟨(fun hc => nomatch hc), hr, hrs⟩) (Bal.black hb hbs)
          (fun hc => nomatch hc)
      | red =>
        simp only [frameColor] at hcol
        obtain ⟨hsb, ⟨g, ctx2, hgeq, hgc⟩, hctx2⟩ := hcol
        have htb : cOf t = Color.black := by
          cases hct : cOf t with
          | black => rfl
          | red => exact absurd (hred hct) (by simp [headBlackC, frameColor])
        have hsb2 : cOf sib = Color.black := by simpa [sibOf] using hsb
        refine ih (Tree.node t (Color.red, k1, v1) sib) n hctx2
          (RedOK_node.mpr ⟨fun _ => ⟨htb, hsb2⟩, hr, hrs⟩)
          (Bal.red hb hbs) ?_
        intro _
        rw [hgeq]
        simpa [headBlackC] using hgc
    | right a sib =>
      obtain ⟨c, k1, v1⟩ := a
      cases c with
      | black =>
        simp only [frameColor] at hcol
        refine ih (Tree.node sib (Color.black, k1, v1) t) (n + 1) hcol
          (RedOK_node.mpr ⟨(fun hc => nomatch hc), hrs, hr⟩) (Bal.black hbs hb)
          (fun hc => nomatch hc)
      | red =>
        simp only [frameColor] at hcol
        obtain ⟨hsb, ⟨g, ctx2, hgeq, hgc⟩, hctx2⟩ := hcol
        have htb : cOf t = Color.black := by
          cases hct : cOf t with
          | black => rfl
          | red => exact absurd (hred hct) (by simp [headBlackC, frameColor])
        have hsb2 : cOf sib = Color.black := by simpa [sibOf] using hsb
        refine ih (Tree.node sib (Color.red, k1, v1) t) n hctx2
          (RedOK_node.mpr ⟨fun _ => ⟨hsb2, htb⟩, hrs, hr⟩)
          (Bal.red hbs hb) ?_
        intro _
        rw [hgeq]
        simpa [headBlackC] using hgc

/-- Core fixup correctness: starting from a RED node with BLACK-rooted
subtrees (exactly the shape of a freshly inserted node or a case-1
recolored grandparent) in a valid context, `_fix` restores all red-black
invariants.  Strong induction on the context length (case 1 consumes two
frames per iteration). -/
theorem fixup_ok_aux : ∀ (N : Nat) (ctx : Ctx (P V)), ctx.length ≤ N →
    ∀ (zl zr : Tree (P V)) (k : Int) (v : V) (n : Nat),
    cOf zl = Color.black → cOf zr = Color.black →
    RedOK (Tree.node zl (Color.red, k, v) zr) →
    Bal (Tree.node zl (Color.red, k, v) zr) n →
    CtxOK ctx n →
    cOf (fixup (Tree.node zl (Color.red, k, v) zr) ctx) = Color.black ∧
    RedOK (fixup (Tree.node zl (Color.red, k, v) zr) ctx) ∧
    ∃ m, Bal (fixup (Tree.node zl (Color.red, k, v) zr) ctx) m := by
  intro N
  induction N with
  | zero =>
    intro ctx hlen zl zr k v n hzl hzr hzok hzbal hctx
    have hnil : ctx = [] := List.length_eq_zero.mp (Nat.le_zero.mp hlen)
    subst hnil
    obtain ⟨_, hrzl, hrzr⟩ := RedOK_node.mp hzok
    cases hzbal with
    | red hbzl hbzr =>
      exact ⟨rfl, RedOK_node.mpr ⟨(fun hc => nomatch hc), hrzl, hrzr⟩,
        n + 1, Bal.black hbzl hbzr⟩
  | succ N ih =>
    intro ctx hlen zl zr k v n hzl hzr hzok hzbal hctx
    obtain ⟨_, hrzl, hrzr⟩ := RedOK_node.mp hzok
    cases ctx with
    | nil =>
      cases hzbal with
      | red hbzl hbzr =>
        exact ⟨rfl, RedOK_node.mpr ⟨(fun hc => nomatch hc), hrzl, hrzr⟩,
          n + 1, Bal.black hbzl hbzr⟩
    | cons f1 ctx1 =>
      obtain ⟨hrs1, hbs1, hcol1⟩ := hctx
      cases f1 with
      | left a1 s1 =>
        obtain ⟨c1, k1, v1⟩ := a1
        simp only [sibOf] at hrs1 hbs1
        cases c1 with
        | black =>
          -- z.p is BLACK: the while loop does not run; root is blackened
          simp only [frameColor] at hcol1
          obtain ⟨hpOK, m, hpBal⟩ := plug_ok (Frame.left (Color.black, k1, v1) s1 :: ctx1)
            (Tree.node zl (Color.red, k, v) zr) n
            ⟨by simpa [sibOf] using hrs1, by simpa [sibOf] using hbs1, hcol1⟩
            hzok hzbal (fun _ => by simp [headBlackC, frameColor])
          rw [show fixup (Tree.node zl (Color.red, k, v) zr)
              (Frame.left (Color.black, k1, v1) s1 :: ctx1)
              = blacken (plug (Tree.node zl (Color.red, k, v) zr)
                  (Frame.left (Color.black, k1, v1) s1 :: ctx1)) from rfl]
          exact ⟨cOf_blacken _, RedOK_blacken hpOK, Bal_blacken hpBal⟩
        | red =>
          simp only [frameColor] at hcol1
          obtain ⟨hsb1, ⟨g, ctx2, hgeq, hgc⟩, hctx1n⟩ := hcol1
          simp only [sibOf] at hsb1
          subst hgeq
          obtain ⟨hru, hbu, hcolg⟩ := hctx1n
          cases hzbal with
          | red hbzl hbzr =>
          cases g with
          | left a2 u =>
            obtain ⟨c2, k2, v2⟩ := a2
            simp only [frameColor] at hgc
            subst hgc
            simp only [sibOf] at hru hbu
            simp only [frameColor] at hcolg
            cases hu : cOf u with
            | red =>
              -- case 1: recolor parent, uncle, grandparent; continue from grandparent
              rw [show fixup (Tree.node zl (Color.red, k, v) zr)
                  (Frame.left (Color.red, k1, v1) s1 ::
                    Frame.left (Color.black, k2, v2) u :: ctx2)
                  = fixup (Tree.node
                      (blackParent (Tree.node zl (Color.red, k, v) zr)
                        (Frame.left (Color.red, k1, v1) s1))
                      (Color.red, k2, v2) (blacken u)) ctx2 by
                  simp only [fixup, frameColor, hu]]
              simp only [blackParent]
              refine ih ctx2 (by simp at hlen; omega) _ _ k2 v2 (n + 1) rfl
                (cOf_blacken u) ?_ ?_ hcolg
              · exact RedOK_node.mpr ⟨(fun _ => ⟨rfl, cOf_blacken u⟩),
                  RedOK_node.mpr ⟨(fun hc => nomatch hc), hzok, hrs1⟩,
                  RedOK_blacken hru⟩
              · exact Bal.red (Bal.black (Bal.red hbzl hbzr) hbs1)
                  (Bal_blacken_red hbu hu)
            | black =>
              -- cases 2/3 with z an outer (left-left) child: single right
              -- rotation of the grandparent
              rw [show fixup (Tree.node zl (Color.red, k, v) zr)
                  (Frame.left (Color.red, k1, v1) s1 ::
                    Frame.left (Color.black, k2, v2) u :: ctx2)
                  = blacken (plug (rrot (Tree.node
                      (Tree.node (Tree.node zl (Color.red, k, v) zr)
                        (Color.black, k1, v1) s1)
                      (Color.red, k2, v2) u)) ctx2) by
                  simp only [fixup, frameColor, hu]]
              rw [show rrot (Tree.node
                  (Tree.node (Tree.node zl (Color.red, k, v) zr)
                    (Color.black, k1, v1) s1)
                  (Color.red, k2, v2) u)
                  = Tree.node (Tree.node zl (Color.red, k, v) zr)
                      (Color.black, k1, v1)
                      (Tree.node s1 (Color.red, k2, v2) u) from rfl]
              obtain ⟨hpOK, m, hpBal⟩ := plug_ok ctx2
                (Tree.node (Tree.node zl (Color.red, k, v) zr)
                  (Color.black, k1, v1) (Tree.node s1 (Color.red, k2, v2) u))
                (n + 1) hcolg
                (RedOK_node.mpr ⟨(fun hc => nomatch hc), hzok,
                  RedOK_node.mpr ⟨(fun _ => ⟨hsb1, hu⟩), hrs1, hru⟩⟩)
                (Bal.black (Bal.red hbzl hbzr) (Bal.red hbs1 hbu))
                (fun hc => nomatch hc)
              exact ⟨cOf_blacken _, RedOK_blacken hpOK, Bal_blacken hpBal⟩
          | right a2 u =>
            obtain ⟨c2, k2, v2⟩ := a2
            simp only [frameColor] at hgc
            subst hgc
            simp only [sibOf] at hru hbu
            simp only [frameColor] at hcolg
            cases hu : cOf u with
            | red =>
              -- mirror case 1
              rw [show fixup (Tree.node zl (Color.red, k, v) zr)
                  (Frame.left (Color.red, k1, v1) s1 ::
                    Frame.right (Color.black, k2, v2) u :: ctx2)
                  = fixup (Tree.node (blacken u) (Color.red, k2, v2)
                      (blackParent (Tree.node zl (Color.red, k, v) zr)
                        (Frame.left (Color.red, k1, v1) s1))) ctx2 by
                  simp only [fixup, frameColor, hu]]
              simp only [blackParent]
              refine ih ctx2 (by simp at hlen; omega) _ _ k2 v2 (n + 1)
                (cOf_blacken u) rfl ?_ ?_ hcolg
              · exact RedOK_node.mpr ⟨(fun _ => ⟨cOf_blacken u, rfl⟩),
                  RedOK_blacken hru,
                  RedOK_node.mpr ⟨(fun hc => nomatch hc), hzok, hrs1⟩⟩
              · exact Bal.red (Bal_blacken_red hbu hu)
                  (Bal.black (Bal.red hbzl hbzr) hbs1)
            | black =>
              -- mirror cases 2/3 with z an inner (right-left) child:
              -- right-rotate the parent, then left-rotate the grandparent
              rw [show fixup (Tree.node zl (Color.red, k, v) zr)
                  (Frame.left (Color.red, k1, v1) s1 ::
                    Frame.right (Color.black, k2, v2) u :: ctx2)
                  = blacken (plug (lrot (Tree.node u (Color.red, k2, v2)
                      (blacken (rrot (Tree.node
                        (Tree.node zl (Color.red, k, v) zr)
                        (Color.red, k1, v1) s1))))) ctx2) by
                  simp only [fixup, frameColor, hu]]
              rw [show lrot (Tree.node u (Color.red, k2, v2)
                  (blacken (rrot (Tree.node
                    (Tree.node zl (Color.red, k, v) zr)
                    (Color.red, k1, v1) s1))))
                  = Tree.node (Tree.node u (Color.red, k2, v2) zl)
                      (Color.black, k, v)
                      (Tree.node zr (Color.red, k1, v1) s1) from rfl]
              obtain ⟨hpOK, m, hpBal⟩ := plug_ok ctx2
                (Tree.node (Tree.node u (Color.red, k2, v2) zl)
                  (Color.black, k, v)
                  (Tree.node zr (Color.red, k1, v1) s1))
                (n + 1) hcolg
                (RedOK_node.mpr ⟨(fun hc => nomatch hc),
                  RedOK_node.mpr ⟨(fun _ => ⟨hu, hzl⟩), hru, hrzl⟩,
                  RedOK_node.mpr ⟨(fun _ => ⟨hzr, hsb1⟩), hrzr, hrs1⟩⟩)
                (Bal.black (Bal.red hbu hbzl) (Bal.red hbzr hbs1))
                (fun hc => nomatch hc)
              exact ⟨cOf_blacken _, RedOK_blacken hpOK, Bal_blacken hpBal⟩
      | right a1 s1 =>
        obtain ⟨c1, k1, v1⟩ := a1
        simp only [sibOf] at hrs1 hbs1
        cases c1 with
        | black =>
          simp only [frameColor] at hcol1
          obtain ⟨hpOK, m, hpBal⟩ := plug_ok (Frame.right (Color.black, k1, v1) s1 :: ctx1)
            (Tree.node zl (Color.red, k, v) zr) n
            ⟨by simpa [sibOf] using hrs1, by simpa [sibOf] using hbs1, hcol1⟩
            hzok hzbal (fun _ => by simp [headBlackC, frameColor])
          rw [show fixup (Tree.node zl (Color.red, k, v) zr)
              (Frame.right (Color.black, k1, v1) s1 :: ctx1)
              = blacken (plug (Tree.node zl (Color.red, k, v) zr)
                  (Frame.right (Color.black, k1, v1) s1 :: ctx1)) from rfl]
          exact ⟨cOf_blacken _, RedOK_blacken hpOK, Bal_blacken hpBal⟩
        | red =>
          simp only [frameColor] at hcol1
          obtain ⟨hsb1, ⟨g, ctx2, hgeq, hgc⟩, hctx1n⟩ := hcol1
          simp only [sibOf] at hsb1
          subst hgeq
          obtain ⟨hru, hbu, hcolg⟩ := hctx1n
          cases hzbal with
          | red hbzl hbzr =>
          cases g with
          | left a2 u =>
            obtain ⟨c2, k2, v2⟩ := a2
            simp only [frameColor] at hgc
            subst hgc
            simp only [sibOf] at hru hbu
            simp only [frameColor] at hcolg
            cases hu : cOf u with
            | red =>
              rw [show fixup (Tree.node zl (Color.red, k, v) zr)
                  (Frame.right (Color.red, k1, v1) s1 ::
                    Frame.left (Color.black, k2, v2) u :: ctx2)
                  = fixup (Tree.node
                      (blackParent (Tree.node zl (Color.red, k, v) zr)
                        (Frame.right (Color.red, k1, v1) s1))
                      (Color.red, k2, v2) (blacken u)) ctx2 by
                  simp only [fixup, frameColor, hu]]
              simp only [blackParent]
              refine ih ctx2 (by simp at hlen; omega) _ _ k2 v2 (n + 1) rfl
                (cOf_blacken u) ?_ ?_ hcolg
              · exact RedOK_node.mpr ⟨(fun _ => ⟨rfl, cOf_blacken u⟩),
                  RedOK_node.mpr ⟨(fun hc => nomatch hc), hrs1, hzok⟩,
                  RedOK_blacken hru⟩
              · exact Bal.red (Bal.black hbs1 (Bal.red hbzl hbzr))
                  (Bal_blacken_red hbu hu)
            | black =>
              -- z is an inner (left-right) child: left-rotate the parent,
              -- then right-rotate the grandparent
              rw [show fixup (Tree.node zl (Color.red, k, v) zr)
                  (Frame.right (Color.red, k1, v1) s1 ::
                    Frame.left (Color.black, k2, v2) u :: ctx2)
                  = blacken (plug (rrot (Tree.node
                      (blacken (lrot (Tree.node s1 (Color.red, k1, v1)
                        (Tree.node zl (Color.red, k, v) zr))))
                      (Color.red, k2, v2) u)) ctx2) by
                  simp only [fixup, frameColor, hu]]
              rw [show rrot (Tree.node
                  (blacken (lrot (Tree.node s1 (Color.red, k1, v1)
                    (Tree.node zl (Color.red, k, v) zr))))
                  (Color.red, k2, v2) u)
                  = Tree.node (Tree.node s1 (Color.red, k1, v1) zl)
                      (Color.black, k, v)
                      (Tree.node zr (Color.red, k2, v2) u) from rfl]
              obtain ⟨hpOK, m, hpBal⟩ := plug_ok ctx2
                (Tree.node (Tree.node s1 (Color.red, k1, v1) zl)
                  (Color.black, k, v)
                  (Tree.node zr (Color.red, k2, v2) u))
                (n + 1) hcolg
                (RedOK_node.mpr ⟨(fun hc => nomatch hc),
                  RedOK_node.mpr ⟨(fun _ => ⟨hsb1, hzl⟩), hrs1, hrzl⟩,
                  RedOK_node.mpr ⟨(fun _ => ⟨hzr, hu⟩), hrzr, hru⟩⟩)
                (Bal.black (Bal.red hbs1 hbzl) (Bal.red hbzr hbu))
                (fun hc => nomatch hc)
              exact ⟨cOf_blacken _, RedOK_blacken hpOK, Bal_blacken hpBal⟩
          | right a2 u =>
            obtain ⟨c2, k2, v2⟩ := a2
            simp only [frameColor] at hgc
            subst hgc
            simp only [sibOf] at hru hbu
            simp only [frameColor] at hcolg
            cases hu : cOf u with
            | red =>
              rw [show fixup (Tree.node zl (Color.red, k, v) zr)
                  (Frame.right (Color.red, k1, v1) s1 ::
                    Frame.right (Color.black, k2, v2) u :: ctx2)
                  = fixup (Tree.node (blacken u) (Color.red, k2, v2)
                      (blackParent (Tree.node zl (Color.red, k, v) zr)
                        (Frame.right (Color.red, k1, v1) s1))) ctx2 by
                  simp only [fixup, frameColor, hu]]
              simp only [blackParent]
              refine ih ctx2 (by simp at hlen; omega) _ _ k2 v2 (n + 1)
                (cOf_blacken u) rfl ?_ ?_ hcolg
              · exact RedOK_node.mpr ⟨(fun _ => ⟨cOf_blacken u, rfl⟩),
                  RedOK_blacken hru,
                  RedOK_node.mpr ⟨(fun hc => nomatch hc), hrs1, hzok⟩⟩
              · exact Bal.red (Bal_blacken_red hbu hu)
                  (Bal.black hbs1 (Bal.red hbzl hbzr))
            | black =>
              -- z is an outer (right-right) child: single left rotation of
              -- the grandparent
              rw [show fixup (Tree.node zl (Color.red, k, v) zr)
                  (Frame.right (Color.red, k1, v1) s1 ::
                    Frame.right (Color.black, k2, v2) u :: ctx2)
                  = blacken (plug (lrot (Tree.node u (Color.red, k2, v2)
                      (Tree.node s1 (Color.black, k1, v1)
                        (Tree.node zl (Color.red, k, v) zr)))) ctx2) by
                  simp only [fixup, frameColor, hu]]
              rw [show lrot (Tree.node u (Color.red, k2, v2)
                  (Tree.node s1 (Color.black, k1, v1)
                    (Tree.node zl (Color.red, k, v) zr)))
                  = Tree.node (Tree.node u (Color.red, k2, v2) s1)
                      (Color.black, k1, v1)
                      (Tree.node zl (Color.red, k, v) zr) from rfl]
              obtain ⟨hpOK, m, hpBal⟩ := plug_ok ctx2
                (Tree.node (Tree.node u (Color.red, k2, v2) s1)
                  (Color.black, k1, v1)
                  (Tree.node zl (Color.red, k, v) zr))
                (n + 1) hcolg
                (RedOK_node.mpr ⟨(fun hc => nomatch hc),
                  RedOK_node.mpr ⟨(fun _ => ⟨hu, hsb1⟩), hru, hrs1⟩,
                  hzok⟩)
                (Bal.black (Bal.red hbu hbs1) (Bal.red hbzl hbzr))
                (fun hc => nomatch hc)
              exact ⟨cOf_blacken _, RedOK_blacken hpOK, Bal_blacken hpBal⟩

theorem CtxOK_cons_black {f : Frame (P V)} {ctx : Ctx (P V)} {n : Nat}
    (hf : frameColor f = Color.black) (h1 : RedOK (sibOf f))
    (h2 : Bal (sibOf f) n) (h3 : CtxOK ctx (n + 1)) : CtxOK (f :: ctx) n := by
  refine ⟨h1, h2, ?_⟩
  rw [hf]
  exact h3

theorem CtxOK_cons_red {f : Frame (P V)} {ctx : Ctx (P V)} {n : Nat}
    (hf : frameColor f = Color.red) (h1 : RedOK (sibOf f))
    (h2 : Bal (sibOf f) n) (h3 : cOf (sibOf f) = Color.black)
    (h4 : ∃ g ctx2, ctx = g :: ctx2 ∧ frameColor g = Color.black)
    (h5 : CtxOK ctx n) : CtxOK (f :: ctx) n := by
  refine ⟨h1, h2, ?_⟩
  rw [hf]
  exact ⟨h3, h4, h5⟩

/-- The insertion descent of a valid tree yields a valid context for the
new (black-height 0) leaf position. -/
theorem descend_ok (k : Int) : ∀ (t : Tree (P V)) (ctx : Ctx (P V)) (n : Nat),
    RedOK t → Bal t n → CtxOK ctx n →
    (cOf t = Color.red → ∃ g ctx2, ctx = g :: ctx2 ∧ frameColor g = Color.black) →
    CtxOK (descend k t ctx) 0 := by
  intro t
  induction t with
  | nil =>
    intro ctx n _ hbal hctx _
    cases hbal
    exact hctx
  | node l a r ihl ihr =>
    intro ctx n hrok hbal hctx hred
    obtain ⟨c, k1, v1⟩ := a
    obtain ⟨hcc, hrl, hrr⟩ := RedOK_node.mp hrok
    cases c with
    | black =>
      cases hbal with
      | black hbl hbr =>
        rw [show descend k (Tree.node l (Color.black, k1, v1) r) ctx
            = if k < k1 then descend k l (Frame.left (Color.black, k1, v1) r :: ctx)
              else descend k r (Frame.right (Color.black, k1, v1) l :: ctx) from rfl]
        by_cases hk : k < k1
        · rw [if_pos hk]
          exact ihl _ _ hrl hbl
            (CtxOK_cons_black rfl hrr hbr hctx)
            (fun _ => ⟨Frame.left (Color.black, k1, v1) r, ctx, rfl, rfl⟩)
        · rw [if_neg hk]
          exact ihr _ _ hrr hbr
            (CtxOK_cons_black rfl hrl hbl hctx)
            (fun _ => ⟨Frame.right (Color.black, k1, v1) l, ctx, rfl, rfl⟩)
    | red =>
      obtain ⟨hcl, hcr⟩ := hcc rfl
      cases hbal with
      | red hbl hbr =>
        rw [show descend k (Tree.node l (Color.red, k1, v1) r) ctx
            = if k < k1 then descend k l (Frame.left (Color.red, k1, v1) r :: ctx)
              else descend k r (Frame.right (Color.red, k1, v1) l :: ctx) from rfl]
        by_cases hk : k < k1
        · rw [if_pos hk]
          exact ihl _ _ hrl hbl
            (CtxOK_cons_red rfl hrr hbr hcr (hred rfl) hctx)
            (fun hc => absurd (hcl.symm.trans hc) (fun hx => nomatch hx))
        · rw [if_neg hk]
          exact ihr _ _ hrr hbr
            (CtxOK_cons_red rfl hrl hbl hcl (hred rfl) hctx)
            (fun hc => absurd (hcr.symm.trans hc) (fun hx => nomatch hx))

/-- Any insert into a valid RBT (benchmark version) preserves all
red-black invariants. -/
theorem insert_RBInv (t : Tree (P V)) (k : Int) (v : V) (h : RBInv t) :
    RBInv (insert t k v) := by
  obtain ⟨hc, hrok, n, hbal⟩ := h
  have hctx : CtxOK (descend k t []) 0 :=
    descend_ok k t [] n hrok hbal trivial
      (fun hr => absurd (hc.symm.trans hr) (fun hx => nomatch hx))
  have := fixup_ok_aux (descend k t []).length (descend k t []) (le_refl _)
    Tree.nil Tree.nil k v 0 rfl rfl
    (RedOK_node.mpr ⟨(fun _ => ⟨rfl, rfl⟩), trivial, trivial⟩)
    (Bal.red Bal.nil Bal.nil) hctx
  exact ⟨this.1, this.2.1, this.2.2⟩

theorem cOf_setval (k : Int) (v : V) (t : Tree (P V)) :
    cOf (setval k v t) = cOf t := by
  cases t with
  | nil => rfl
  | node l a r =>
    simp only [setval]
    split
    · rfl
    · split <;> rfl

theorem RedOK_setval (k : Int) (v : V) : ∀ (t : Tree (P V)), RedOK t →
    RedOK (setval k v t) := by
  intro t
  induction t with
  | nil => intro h; trivial
  | node l a r ihl ihr =>
    intro h
    obtain ⟨hcc, hrl, hrr⟩ := RedOK_node.mp h
    simp only [setval]
    split
    · exact RedOK_node.mpr ⟨hcc, hrl, hrr⟩
    · split
      · exact RedOK_node.mpr ⟨fun hc => by
          obtain ⟨h1, h2⟩ := hcc hc
          exact ⟨(cOf_setval k v l).trans h1, h2⟩, ihl hrl, hrr⟩
      · exact RedOK_node.mpr ⟨fun hc => by
          obtain ⟨h1, h2⟩ := hcc hc
          exact ⟨h1, (cOf_setval k v r).trans h2⟩, hrl, ihr hrr⟩

theorem Bal_setval (k : Int) (v : V) : ∀ (t : Tree (P V)) (n : Nat), Bal t n →
    Bal (setval k v t) n := by
  intro t
  induction t with
  | nil => intro n h; exact h
  | node l a r ihl ihr =>
    intro n h
    obtain ⟨c, k1, v1⟩ := a
    cases h with
    | red hbl hbr =>
      simp only [setval]
      split
      · exact Bal.red hbl hbr
      · split
        · exact Bal.red (ihl _ hbl) hbr
        · exact Bal.red hbl (ihr _ hbr)
    | black hbl hbr =>
      simp only [setval]
      split
      · exact Bal.black hbl hbr
      · split
        · exact Bal.black (ihl _ hbl) hbr
        · exact Bal.black hbl (ihr _ hbr)

/-- Any insert into a valid RBT (dashboard version, duplicate check first)
preserves all red-black invariants. -/
theorem insertD_RBInv (t : Tree (P V)) (k : Int) (v : V) (h : RBInv t) :
    RBInv (insertD t k v) := by
  obtain ⟨hc, hrok, n, hbal⟩ := h
  rw [insertD]
  split
  · exact ⟨(cOf_setval k v t).trans hc, RedOK_setval k v t hrok,
      n, Bal_setval k v t n hbal⟩
  · exact insert_RBInv t k v ⟨hc, hrok, n, hbal⟩

theorem build_RBInv (items : List (Int × V)) : RBInv (build items) := by
  have : ∀ (l : List (Int × V)) (t : Tree (P V)), RBInv t →
      RBInv (l.foldl (fun t kv => insert t kv.1 kv.2) t) := by
    intro l
    induction l with
    | nil => intro t h; exact h
    | cons kv l ih =>
      intro t h
      exact ih _ (insert_RBInv t kv.1 kv.2 h)
  exact this items Tree.nil ⟨rfl, trivial, 0, Bal.nil⟩

theorem buildD_RBInv (items : List (Int × V)) : RBInv (buildD items) := by
  have : ∀ (l : List (Int × V)) (t : Tree (P V)), RBInv t →
      RBInv (l.foldl (fun t kv => insertD t kv.1 kv.2) t) := by
    intro l
    induction l with
    | nil => intro t h; exact h
    | cons kv l ih =>
      intro t h
      exact ih _ (insertD_RBInv t kv.1 kv.2 h)
  exact this items Tree.nil ⟨rfl, trivial, 0, Bal.nil⟩

theorem heightN_bound : ∀ (t : Tree (P V)) (n : Nat), RedOK t → Bal t n →
    Tree.heightN t ≤ 2 * n + 1 ∧
    (cOf t = Color.black → Tree.heightN t ≤ 2 * n) := by
  intro t
  induction t with
  | nil =>
    intro n _ hbal
    cases hbal
    simp [Tree.heightN]
  | node l a r ihl ihr =>
    intro n hrok hbal
    obtain ⟨hcc, hrl, hrr⟩ := RedOK_node.mp hrok
    cases hbal with
    | red hbl hbr =>
      obtain ⟨hcl, hcr⟩ := hcc rfl
      have h1 := (ihl _ hrl hbl).2 hcl
      have h2 := (ihr _ hrr hbr).2 hcr
      constructor
      · simp only [Tree.heightN]; omega
      · intro hcon; exact absurd hcon (by simp [cOf])
    | black hbl hbr =>
      have h1 := (ihl _ hrl hbl).1
      have h2 := (ihr _ hrr hbr).1
      constructor
      · simp only [Tree.heightN]; omega
      · intro _; simp only [Tree.heightN]; omega

theorem size_pow_le : ∀ (t : Tree (P V)) (n : Nat), Bal t n →
    2 ^ n ≤ t.size + 1 := by
  intro t
  induction t with
  | nil => intro n hbal; cases hbal; simp
  | node l a r ihl ihr =>
    intro n hbal
    cases hbal with
    | red hbl hbr =>
      have h1 := ihl _ hbl
      have h2 := ihr _ hbr
      simp only [Tree.size]
      omega
    | black hbl hbr =>
      have h1 := ihl _ hbl
      have h2 := ihr _ hbr
      simp only [Tree.size]
      rw [pow_succ]
      omega

/-- Invariant (d): a valid RBT with `n` nodes has height at most
`2·log₂(n + 1)`. -/
theorem height_le_log (t : Tree (P V)) (h : RBInv t) :
    Tree.heightN t ≤ 2 * Nat.log 2 (t.size + 1) := by
  obtain ⟨hc, hrok, n, hbal⟩ := h
  have h1 := (heightN_bound t n hrok hbal).2 hc
  have h2 := size_pow_le t n hbal
  have h3 : n ≤ Nat.log 2 (t.size + 1) :=
    (Nat.pow_le_iff_le_log (by norm_num) (by omega)).mp h2
  omega

theorem pairs_nil : pairs (Tree.nil : Tree (P V)) = [] := rfl

theorem pairs_node (l r : Tree (P V)) (a : P V) :
    pairs (Tree.node l a r) = pairs l ++ kv a :: pairs r := by
  simp [pairs, Tree.inorder]

theorem pairs_plug (t : Tree (P V)) (ctx : Ctx (P V)) :
    pairs (plug t ctx)
      = (ctxBefore ctx).map kv ++ pairs t ++ (ctxAfter ctx).map kv := by
  simp [pairs, inorder_plug]

theorem pairs_blacken (t : Tree (P V)) : pairs (blacken t) = pairs t := by
  cases t with
  | nil => rfl
  | node l a r => simp [blacken, pairs_node, kv]

/-- Rotations preserve the in-order `(key, value)` sequence. -/
theorem pairs_lrot (t : Tree (P V)) : pairs (lrot t) = pairs t := by
  match t with
  | Tree.nil => rfl
  | Tree.node a x Tree.nil => rfl
  | Tree.node a x (Tree.node b y c) => simp [lrot, pairs_node]

theorem pairs_rrot (t : Tree (P V)) : pairs (rrot t) = pairs t := by
  match t with
  | Tree.nil => rfl
  | Tree.node Tree.nil x c => rfl
  | Tree.node (Tree.node a y b) x c => simp [rrot, pairs_node]

theorem pairs_blackParent (z : Tree (P V)) (f : Frame (P V)) :
    pairs (blackParent z f) = pairs (plug z [f]) := by
  cases f with
  | left a sib => simp [blackParent, plug, pairs_node, kv]
  | right a sib => simp [blackParent, plug, pairs_node, kv]

theorem plug_cons_cons_left (z : Tree (P V)) (f1 : Frame (P V)) (a2 : P V)
    (u : Tree (P V)) (rest : Ctx (P V)) :
    plug z (f1 :: Frame.left a2 u :: rest)
      = plug (Tree.node (plug z [f1]) a2 u) rest := by
  cases f1 <;> rfl

theorem plug_cons_cons_right (z : Tree (P V)) (f1 : Frame (P V)) (a2 : P V)
    (u : Tree (P V)) (rest : Ctx (P V)) :
    plug z (f1 :: Frame.right a2 u :: rest)
      = plug (Tree.node u a2 (plug z [f1])) rest := by
  cases f1 <;> rfl

theorem pairs_plugF (z : Tree (P V)) (f1 : Frame (P V)) :
    pairs (plug z [f1])
      = pairs (blackParent z f1) := (pairs_blackParent z f1).symm

/-- The fixup rearranges structure and colors but never the in-order
`(key, value)` sequence. -/
theorem fixup_pairs : ∀ (z : Tree (P V)) (ctx : Ctx (P V)),
    pairs (fixup z ctx) = pairs (plug z ctx) := by
  intro z ctx
  induction z, ctx using fixup.induct with
  | case1 z => simp [fixup, plug, pairs_blacken]
  | case2 z f1 ctx1 hf =>
    have hstep : fixup z (f1 :: ctx1) = blacken (plug z (f1 :: ctx1)) := by
      cases f1 with
      | left a s =>
        obtain ⟨c, k1, v1⟩ := a
        simp only [frameColor] at hf
        subst hf
        rfl
      | right a s =>
        obtain ⟨c, k1, v1⟩ := a
        simp only [frameColor] at hf
        subst hf
        rfl
    rw [hstep]
    exact pairs_blacken _
  | case3 z f1 hf =>
    have hstep : fixup z [f1] = blacken (plug z [f1]) := by
      cases f1 with
      | left a s =>
        obtain ⟨c, k1, v1⟩ := a
        simp only [frameColor] at hf
        subst hf
        rfl
      | right a s =>
        obtain ⟨c, k1, v1⟩ := a
        simp only [frameColor] at hf
        subst hf
        rfl
    rw [hstep]
    exact pairs_blacken _
  | case4 z f1 hf rest c2 k2 v2 u hu ih =>
    have hstep : fixup z (f1 :: Frame.left (c2, k2, v2) u :: rest)
        = fixup (Tree.node (blackParent z f1) (Color.red, k2, v2) (blacken u)) rest := by
      cases u with
      | nil => exact absurd hu (by simp [cOf])
      | node ul au ur =>
        obtain ⟨cu, ku, vu⟩ := au
        simp only [cOf] at hu
        subst hu
        cases f1 with
        | left a s =>
          obtain ⟨c, k1, v1⟩ := a
          simp only [frameColor] at hf
          subst hf
          rfl
        | right a s =>
          obtain ⟨c, k1, v1⟩ := a
          simp only [frameColor] at hf
          subst hf
          rfl
    rw [hstep, ih, plug_cons_cons_left, pairs_plug, pairs_plug]
    simp [pairs_node, pairs_blacken, pairs_blackParent, kv]
  | case5 z rest c2 k2 v2 u hu c1 k1 v1 s1 hf =>
    simp only [frameColor] at hf
    subst hf
    rw [show fixup z (Frame.left (Color.red, k1, v1) s1 ::
          Frame.left (c2, k2, v2) u :: rest)
        = blacken (plug (rrot (Tree.node
            (Tree.node z (Color.black, k1, v1) s1)
            (Color.red, k2, v2) u)) rest) by
      simp [fixup, hu]]
    rw [pairs_blacken, plug_cons_cons_left, pairs_plug, pairs_plug]
    simp [pairs_rrot, pairs_node, plug, kv]
  | case6 z rest c2 k2 v2 u hu c1 k1 v1 s1 hf =>
    simp only [frameColor] at hf
    subst hf
    rw [show fixup z (Frame.right (Color.red, k1, v1) s1 ::
          Frame.left (c2, k2, v2) u :: rest)
        = blacken (plug (rrot (Tree.node
            (blacken (lrot (Tree.node s1 (Color.red, k1, v1) z)))
            (Color.red, k2, v2) u)) rest) by
      simp [fixup, hu]]
    rw [pairs_blacken, plug_cons_cons_left, pairs_plug, pairs_plug]
    simp [pairs_rrot, pairs_blacken, pairs_lrot, pairs_node, plug, kv]
  | case7 z f1 hf rest c2 k2 v2 u hu ih =>
    have hstep : fixup z (f1 :: Frame.right (c2, k2, v2) u :: rest)
        = fixup (Tree.node (blacken u) (Color.red, k2, v2) (blackParent z f1)) rest := by
      cases u with
      | nil => exact absurd hu (by simp [cOf])
      | node ul au ur =>
        obtain ⟨cu, ku, vu⟩ := au
        simp only [cOf] at hu
        subst hu
        cases f1 with
        | left a s =>
          obtain ⟨c, k1, v1⟩ := a
          simp only [frameColor] at hf
          subst hf
          rfl
        | right a s =>
          obtain ⟨c, k1, v1⟩ := a
          simp only [frameColor] at hf
          subst hf
          rfl
    rw [hstep, ih, plug_cons_cons_right, pairs_plug, pairs_plug]
    simp [pairs_node, pairs_blacken, pairs_blackParent, kv]
  | case8 z rest c2 k2 v2 u hu c1 k1 v1 s1 hf =>
    simp only [frameColor] at hf
    subst hf
    rw [show fixup z (Frame.right (Color.red, k1, v1) s1 ::
          Frame.right (c2, k2, v2) u :: rest)
        = blacken (plug (lrot (Tree.node u (Color.red, k2, v2)
            (Tree.node s1 (Color.black, k1, v1) z))) rest) by
      simp [fixup, hu]]
    rw [pairs_blacken, plug_cons_cons_right, pairs_plug, pairs_plug]
    simp [pairs_lrot, pairs_node, plug, kv]
  | case9 z rest c2 k2 v2 u hu c1 k1 v1 s1 hf =>
    simp only [frameColor] at hf
    subst hf
    rw [show fixup z (Frame.left (Color.red, k1, v1) s1 ::
          Frame.right (c2, k2, v2) u :: rest)
        = blacken (plug (lrot (Tree.node u (Color.red, k2, v2)
            (blacken (rrot (Tree.node z (Color.red, k1, v1) s1))))) rest) by
      simp [fixup, hu]]
    rw [pairs_blacken, plug_cons_cons_right, pairs_plug, pairs_plug]
    simp [pairs_lrot, pairs_blacken, pairs_rrot, pairs_node, plug, kv]

theorem KSorted_pairs_iff (t : Tree (P V)) :
    KSorted keyP (pairs t) ↔ KSorted keyR t.inorder := by
  unfold KSorted pairs
  rw [List.pairwise_map]
  exact Iff.rfl

theorem keys_pairs (t : Tree (P V)) :
    (pairs t).map Prod.fst = t.inorder.map keyR := by
  rw [pairs, List.map_map]
  rfl

/-- The descent drops the fresh node exactly where the list-level `lins`
places its pair. -/
theorem descend_pairs (k : Int) (v : V) (c0 : Color) :
    ∀ (t : Tree (P V)) (ctx : Ctx (P V)), KSorted keyR t.inorder →
    pairs (plug (Tree.node Tree.nil (c0, k, v) Tree.nil) (descend k t ctx))
      = (ctxBefore ctx).map kv ++ lins k v (pairs t) ++ (ctxAfter ctx).map kv := by
  intro t
  induction t with
  | nil =>
    intro ctx _
    rw [show descend k Tree.nil ctx = ctx from rfl, pairs_plug]
    simp [pairs_node, pairs_nil, lins, kv]
  | node l a r ihl ihr =>
    intro ctx hs
    obtain ⟨c1, k1, v1⟩ := a
    obtain ⟨hsl, hsr, hla, har⟩ := KSorted_node keyR l r (c1, k1, v1) hs
    by_cases hk : k < k1
    · rw [show descend k (Tree.node l (c1, k1, v1) r) ctx
          = descend k l (Frame.left (c1, k1, v1) r :: ctx) by simp [descend, hk]]
      rw [ihl _ hsl]
      rw [show ctxBefore (Frame.left (c1, k1, v1) r :: ctx) = ctxBefore ctx from rfl]
      rw [show ctxAfter (Frame.left (c1, k1, v1) r :: ctx)
          = (c1, k1, v1) :: (r.inorder ++ ctxAfter ctx) by simp [ctxAfter]]
      rw [pairs_node,
        lins_append_lt k v (kv (c1, k1, v1)) (pairs l) (pairs r)
          (by simpa [kv] using hk)]
      simp [kv, pairs]
    · rw [show descend k (Tree.node l (c1, k1, v1) r) ctx
          = descend k r (Frame.right (c1, k1, v1) l :: ctx) by simp [descend, hk]]
      rw [ihr _ hsr]
      rw [show ctxBefore (Frame.right (c1, k1, v1) l :: ctx)
          = ctxBefore ctx ++ l.inorder ++ [(c1, k1, v1)] by simp [ctxBefore]]
      rw [show ctxAfter (Frame.right (c1, k1, v1) l :: ctx) = ctxAfter ctx from rfl]
      have hmem : ∀ x ∈ pairs l ++ [kv (c1, k1, v1)], ¬ k < x.1 := by
        intro x hx
        rcases List.mem_append.mp hx with hx | hx
        · obtain ⟨w, hw, hwx⟩ := List.mem_map.mp hx
          have := hla w hw
          simp only [keyR] at this
          rw [← hwx]
          simp only [kv]
          omega
        · have hxa : x = kv (c1, k1, v1) := by simpa using hx
          subst hxa
          simp only [kv]
          omega
      rw [pairs_node,
        show pairs l ++ kv (c1, k1, v1) :: pairs r
          = (pairs l ++ [kv (c1, k1, v1)]) ++ pairs r by simp,
        lins_append_gt k v (pairs l ++ [kv (c1, k1, v1)]) (pairs r) hmem]
      simp [kv, pairs]

/-- Benchmark `RBTree.insert` at the content level: always a fresh pair,
inserted after every key ≤ the new key. -/
theorem insert_pairs (t : Tree (P V)) (k : Int) (v : V)
    (hs : KSorted keyR t.inorder) :
    pairs (insert t k v) = lins k v (pairs t) := by
  rw [insert, fixup_pairs, descend_pairs k v Color.red t [] hs]
  simp [ctxBefore, ctxAfter]

theorem findB_iff (k : Int) : ∀ (t : Tree (P V)), KSorted keyR t.inorder →
    (findB k t = true ↔ k ∈ (pairs t).map Prod.fst) := by
  intro t
  induction t with
  | nil => intro _; simp [findB, pairs_nil]
  | node l a r ihl ihr =>
    intro hs
    obtain ⟨c1, k1, v1⟩ := a
    obtain ⟨hsl, hsr, hla, har⟩ := KSorted_node keyR l r (c1, k1, v1) hs
    rw [pairs_node]
    by_cases h1 : k = k1
    · simp [findB, h1, kv]
    · by_cases h2 : k < k1
      · rw [show findB k (Tree.node l (c1, k1, v1) r) = findB k l by
          simp [findB, h1, h2]]
        rw [ihl hsl]
        constructor
        · intro h
          simp only [List.map_append, List.map_cons, List.mem_append, List.mem_cons]
          left; exact h
        · intro h
          simp only [List.map_append, List.map_cons, List.mem_append, List.mem_cons] at h
          rcases h with h | h | h
          · exact h
          · exact absurd h (by simp [kv]; omega)
          · rw [keys_pairs] at h
            obtain ⟨w, hw, hwx⟩ := List.mem_map.mp h
            have := har w hw
            simp only [keyR] at this hwx
            omega
      · rw [show findB k (Tree.node l (c1, k1, v1) r) = findB k r by
          simp [findB, h1, h2]]
        rw [ihr hsr]
        constructor
        · intro h
          simp only [List.map_append, List.map_cons, List.mem_append, List.mem_cons]
          right; right; exact h
        · intro h
          simp only [List.map_append, List.map_cons, List.mem_append, List.mem_cons] at h
          rcases h with h | h | h
          · rw [keys_pairs] at h
            obtain ⟨w, hw, hwx⟩ := List.mem_map.mp h
            have := hla w hw
            simp only [keyR] at this hwx
            omega
          · exact absurd h (by simp [kv]; omega)
          · exact h

theorem setval_pairs (k : Int) (v : V) : ∀ (t : Tree (P V)),
    KSorted keyR t.inorder → k ∈ (pairs t).map Prod.fst →
    pairs (setval k v t) = lupdIns k v (pairs t) := by
  intro t
  induction t with
  | nil => intro _ hmem; simp [pairs_nil] at hmem
  | node l a r ihl ihr =>
    intro hs hmem
    obtain ⟨c1, k1, v1⟩ := a
    obtain ⟨hsl, hsr, hla, har⟩ := KSorted_node keyR l r (c1, k1, v1) hs
    have hlk : ∀ x ∈ pairs l, x.1 < k1 := by
      intro x hx
      obtain ⟨w, hw, hwx⟩ := List.mem_map.mp hx
      have := hla w hw
      simp only [keyR] at this
      rw [← hwx]
      simpa [kv] using this
    by_cases h1 : k = k1
    · rw [show setval k v (Tree.node l (c1, k1, v1) r)
          = Tree.node l (c1, k1, v) r by simp [setval, h1]]
      rw [pairs_node, pairs_node,
        lupdIns_append_gt k v (pairs l) (kv (c1, k1, v1) :: pairs r)
          (fun x hx => by have := hlk x hx; omega)]
      simp [lupdIns, kv, h1]
    · by_cases h2 : k < k1
      · rw [show setval k v (Tree.node l (c1, k1, v1) r)
            = Tree.node (setval k v l) (c1, k1, v1) r by simp [setval, h1, h2]]
        have hmeml : k ∈ (pairs l).map Prod.fst := by
          rw [pairs_node] at hmem
          simp only [List.map_append, List.map_cons, List.mem_append,
            List.mem_cons] at hmem
          rcases hmem with h | h | h
          · exact h
          · exact absurd h (by simp [kv]; omega)
          · rw [keys_pairs] at h
            obtain ⟨w, hw, hwx⟩ := List.mem_map.mp h
            have := har w hw
            simp only [keyR] at this hwx
            omega
        rw [pairs_node, pairs_node,
          lupdIns_append_lt k v (kv (c1, k1, v1)) (pairs l) (pairs r)
            (by simpa [kv] using h2), ihl hsl hmeml]
      · rw [show setval k v (Tree.node l (c1, k1, v1) r)
            = Tree.node l (c1, k1, v1) (setval k v r) by simp [setval, h1, h2]]
        have hmemr : k ∈ (pairs r).map Prod.fst := by
          rw [pairs_node] at hmem
          simp only [List.map_append, List.map_cons, List.mem_append,
            List.mem_cons] at hmem
          rcases hmem with h | h | h
          · rw [keys_pairs] at h
            obtain ⟨w, hw, hwx⟩ := List.mem_map.mp h
            have := hla w hw
            simp only [keyR] at this hwx
            omega
          · exact absurd h (by simp [kv]; omega)
          · exact h
        rw [pairs_node, pairs_node,
          show pairs l ++ kv (c1, k1, v1) :: pairs r
            = (pairs l ++ [kv (c1, k1, v1)]) ++ pairs r by simp,
          show pairs l ++ kv (c1, k1, v1) :: pairs (setval k v r)
            = (pairs l ++ [kv (c1, k1, v1)]) ++ pairs (setval k v r) by simp,
          lupdIns_append_gt k v (pairs l ++ [kv (c1, k1, v1)]) (pairs r) (by
            intro x hx
            rcases List.mem_append.mp hx with hx | hx
            · have := hlk x hx; omega
            · have hxa : x = kv (c1, k1, v1) := by simpa using hx
              subst hxa
              simp only [kv]
              omega),
          ihr hsr hmemr]

/-- Dashboard `RBTree.insert` at the content level: value overwrite on a
present key, sorted insertion otherwise — the same list-level effect as
`BST.insert`. -/
theorem insertD_pairs (t : Tree (P V)) (k : Int) (v : V)
    (hs : KSorted keyR t.inorder) :
    pairs (insertD t k v) = lupdIns k v (pairs t) := by
  rw [insertD]
  by_cases hf : findB k t = true
  · rw [if_pos hf]
    exact setval_pairs k v t hs ((findB_iff k t hs).mp hf)
  · rw [if_neg hf]
    rw [insert_pairs t k v hs]
    exact (lupdIns_eq_lins k v (pairs t)
      (fun hc => hf ((findB_iff k t hs).mpr hc))).symm

theorem mem_keys_lins (k : Int) (v : V) (L : List (Int × V)) (y : Int) :
    y ∈ (lins k v L).map Prod.fst ↔ y = k ∨ y ∈ L.map Prod.fst := by
  induction L with
  | nil => simp [lins]
  | cons a L ih =>
    by_cases h : k < a.1
    · simp [lins, h]
    · simp [lins, h, ih]
      tauto

theorem insert_sorted (t : Tree (P V)) (k : Int) (v : V)
    (hs : KSorted keyR t.inorder) (hmem : k ∉ (pairs t).map Prod.fst) :
    KSorted keyR (insert t k v).inorder := by
  rw [← KSorted_pairs_iff, insert_pairs t k v hs,
    ← lupdIns_eq_lins k v _ hmem]
  exact KSorted_lupdIns _ _ _ ((KSorted_pairs_iff t).mpr hs)

theorem insertD_sorted (t : Tree (P V)) (k : Int) (v : V)
    (hs : KSorted keyR t.inorder) :
    KSorted keyR (insertD t k v).inorder := by
  rw [← KSorted_pairs_iff, insertD_pairs t k v hs]
  exact KSorted_lupdIns _ _ _ ((KSorted_pairs_iff t).mpr hs)

theorem buildD_aux (items : List (Int × V)) :
    ∀ (t : Tree (P V)), KSorted keyR t.inorder →
    pairs (items.foldl (fun t kv => insertD t kv.1 kv.2) t)
      = items.foldl (fun L kv => lupdIns kv.1 kv.2 L) (pairs t) ∧
    KSorted keyR (items.foldl (fun t kv => insertD t kv.1 kv.2) t).inorder := by
  induction items with
  | nil => intro t hs; exact ⟨rfl, hs⟩
  | cons kv0 items ih =>
    intro t hs
    have h1 := insertD_pairs t kv0.1 kv0.2 hs
    have h2 := insertD_sorted t kv0.1 kv0.2 hs
    have := ih (insertD t kv0.1 kv0.2) h2
    refine ⟨?_, by simpa [List.foldl_cons] using this.2⟩
    rw [List.foldl_cons, List.foldl_cons, this.1, h1]

theorem buildD_pairs (items : List (Int × V)) :
    pairs (buildD items) = items.foldl (fun L kv => lupdIns kv.1 kv.2 L) [] :=
  (buildD_aux items Tree.nil (by simp [Tree.inorder, KSorted])).1

theorem buildD_sorted (items : List (Int × V)) :
    KSorted keyR (buildD items).inorder :=
  (buildD_aux items Tree.nil (by simp [Tree.inorder, KSorted])).2

/-- Benchmark build on a duplicate-free key sequence: content and
sortedness (with duplicate keys the benchmark tree holds duplicate nodes
instead). -/
theorem build_aux_nodup (items : List (Int × V)) :
    ∀ (t : Tree (P V)), KSorted keyR t.inorder →
    (∀ x ∈ (pairs t).map Prod.fst, x ∉ items.map Prod.fst) →
    (items.map Prod.fst).Nodup →
    pairs (items.foldl (fun t kv => insert t kv.1 kv.2) t)
      = items.foldl (fun L kv => lupdIns kv.1 kv.2 L) (pairs t) ∧
    KSorted keyR (items.foldl (fun t kv => insert t kv.1 kv.2) t).inorder := by
  induction items with
  | nil => intro t hs _ _; exact ⟨rfl, hs⟩
  | cons kv0 items ih =>
    intro t hs hfresh hnd
    have hkmem : kv0.1 ∉ (pairs t).map Prod.fst := by
      intro hc
      exact hfresh kv0.1 hc (by simp)
    have h1 : pairs (insert t kv0.1 kv0.2) = lupdIns kv0.1 kv0.2 (pairs t) := by
      rw [insert_pairs t kv0.1 kv0.2 hs, ← lupdIns_eq_lins kv0.1 kv0.2 _ hkmem]
    have h2 := insert_sorted t kv0.1 kv0.2 hs hkmem
    have hnd1 : kv0.1 ∉ items.map Prod.fst := by
      have := hnd
      simp only [List.map_cons, List.nodup_cons] at this
      exact this.1
    have hfresh1 : ∀ x ∈ (pairs (insert t kv0.1 kv0.2)).map Prod.fst,
        x ∉ items.map Prod.fst := by
      intro x hx
      rw [insert_pairs t kv0.1 kv0.2 hs] at hx
      rcases (mem_keys_lins kv0.1 kv0.2 (pairs t) x).mp hx with h | h
      · rw [h]; exact hnd1
      · intro hc
        exact hfresh x h (by simp only [List.map_cons, List.mem_cons]; right; exact hc)
    have hnd2 : (items.map Prod.fst).Nodup := by
      have := hnd
      simp only [List.map_cons, List.nodup_cons] at this
      exact this.2
    have := ih (insert t kv0.1 kv0.2) h2 hfresh1 hnd2
    refine ⟨?_, by simpa [List.foldl_cons] using this.2⟩
    rw [List.foldl_cons, List.foldl_cons, this.1, h1]

theorem build_pairs_nodup (items : List (Int × V))
    (hnd : (items.map Prod.fst).Nodup) :
    pairs (build items) = items.foldl (fun L kv => lupdIns kv.1 kv.2 L) [] :=
  (build_aux_nodup items Tree.nil (by simp [Tree.inorder, KSorted])
    (by simp [pairs_nil]) hnd).1

theorem build_sorted_nodup (items : List (Int × V))
    (hnd : (items.map Prod.fst).Nodup) :
    KSorted keyR (build items).inorder :=
  (build_aux_nodup items Tree.nil (by simp [Tree.inorder, KSorted])
    (by simp [pairs_nil]) hnd).2

theorem size_eq_pairs_length (t : Tree (P V)) : (pairs t).length = t.size := by
  rw [pairs, List.length_map, Tree.length_inorder]

/-- Size of the ancestor nodes and sibling subtrees recorded in a context. -/
def ctxSize : Ctx (P V) → Nat
| [] => 0
| Frame.left _ sib :: ctx => 1 + sib.size + ctxSize ctx
| Frame.right _ sib :: ctx => 1 + sib.size + ctxSize ctx

theorem size_plug (t : Tree (P V)) (ctx : Ctx (P V)) :
    (plug t ctx).size = t.size + ctxSize ctx := by
  induction ctx generalizing t with
  | nil => simp [plug, ctxSize]
  | cons f ctx ih =>
    cases f with
    | left a sib => simp [plug, ctxSize, ih, Tree.size]; omega
    | right a sib => simp [plug, ctxSize, ih, Tree.size]; omega

theorem ctxSize_descend (k : Int) : ∀ (t : Tree (P V)) (ctx : Ctx (P V)),
    ctxSize (descend k t ctx) = t.size + ctxSize ctx := by
  intro t
  induction t with
  | nil => intro ctx; simp [descend, Tree.size]
  | node l a r ihl ihr =>
    intro ctx
    rw [show descend k (Tree.node l a r) ctx
        = if k < a.2.1 then descend k l (Frame.left a r :: ctx)
          else descend k r (Frame.right a l :: ctx) from rfl]
    by_cases hk : k < a.2.1
    · rw [if_pos hk, ihl]
      simp [ctxSize, Tree.size]
      omega
    · rw [if_neg hk, ihr]
      simp [ctxSize, Tree.size]
      omega

theorem size_fixup (z : Tree (P V)) (ctx : Ctx (P V)) :
    (fixup z ctx).size = (plug z ctx).size := by
  rw [← size_eq_pairs_length, ← size_eq_pairs_length, fixup_pairs]

/-- The benchmark `RBTree.insert` creates exactly one node on EVERY call,
duplicate key or not. -/
theorem size_insert (t : Tree (P V)) (k : Int) (v : V) :
    (insert t k v).size = t.size + 1 := by
  rw [insert, size_fixup, size_plug, ctxSize_descend]
  simp [Tree.size, ctxSize]
  omega

end RBT

section MapFilter

/-- Filtering a mapped list on a predicate of the image = mapping the
filtered list. -/
theorem map_filter_comm {A B : Type} (f : A → B) (p : B → Bool) (l : List A) :
    (l.filter (fun a => p (f a))).map f = (l.map f).filter p := by
  induction l with
  | nil => rfl
  | cons a l ih =>
    by_cases h : p (f a)
    · simp [List.filter_cons, h, ih]
    · simp [List.filter_cons, h, ih]

end MapFilter

namespace RBT

variable {V : Type}

theorem range_items_spec (lo hi : Int) (t : Tree (P V))
    (hs : KSorted keyR t.inorder) :
    range_items lo hi t
      = (pairs t).filter (fun p => decide (lo ≤ p.1) && decide (p.1 ≤ hi)) := by
  simp only [range_items, lower_bound]
  rw [range_items_correct keyR kv lo hi t hs, pairs]
  exact map_filter_comm kv (fun p => decide (lo ≤ p.1) && decide (p.1 ≤ hi)) t.inorder

theorem range_count_spec (lo hi : Int) (t : Tree (P V))
    (hs : KSorted keyR t.inorder) :
    range_count lo hi t
      = ((pairs t).filter (fun p => decide (lo ≤ p.1) && decide (p.1 ≤ hi))).length := by
  simp only [range_count, lower_bound]
  rw [range_count_correct keyR lo hi t hs, pairs,
    ← map_filter_comm kv (fun p => decide (lo ≤ p.1) && decide (p.1 ≤ hi)) t.inorder,
    List.length_map]
  rfl

end RBT

namespace BST

variable {V : Type}

theorem range_count_specB (lo hi : Int) (t : Tree (Int × V))
    (hs : KSorted keyP t.inorder) :
    range_count lo hi t
      = (t.inorder.filter (fun a => decide (lo ≤ a.1) && decide (a.1 ≤ hi))).length := by
  simp only [range_count, lower_bound]
  exact range_count_correct keyP lo hi t hs

end BST

namespace BST

/-- The right-leaning chain that ascending inserts produce: keys
`s, s+1, …, s+n-1` (value = key), every left child empty. -/
def chain (s : Int) : Nat → Tree (Int × Int)
| 0 => Tree.nil
| Nat.succ n => Tree.node Tree.nil (s, s) (chain (s + 1) n)

theorem insert_chain : ∀ (n : Nat) (s : Int),
    insert (chain s n) (s + (n : Int)) (s + (n : Int)) = chain s (n + 1) := by
  intro n
  induction n with
  | zero => intro s; simp [chain, insert]
  | succ n ih =>
    intro s
    have h1 : ¬ (s + (((n : Nat) + 1 : Nat) : Int) = s) := by push_cast; omega
    have h2 : ¬ (s + (((n : Nat) + 1 : Nat) : Int) < s) := by push_cast; omega
    rw [show chain s (n + 1) = Tree.node Tree.nil (s, s) (chain (s + 1) n) from rfl]
    rw [show insert (Tree.node Tree.nil (s, s) (chain (s + 1) n))
          (s + (((n : Nat) + 1 : Nat) : Int)) (s + (((n : Nat) + 1 : Nat) : Int))
        = Tree.node Tree.nil (s, s)
            (insert (chain (s + 1) n) (s + (((n : Nat) + 1 : Nat) : Int))
              (s + (((n : Nat) + 1 : Nat) : Int))) by
      simp only [insert]
      rw [if_neg (by push_cast; omega), if_neg (by push_cast; omega)]]
    rw [show s + (((n : Nat) + 1 : Nat) : Int) = (s + 1) + (n : Int) by push_cast; ring]
    rw [ih (s + 1)]
    rfl

theorem heightN_chain : ∀ (n : Nat) (s : Int), (chain s n).heightN = n := by
  intro n
  induction n with
  | zero => intro s; rfl
  | succ n ih =>
    intro s
    simp only [chain, Tree.heightN, ih]
    omega

/-- Ascending-order benchmark input: `n` items with keys `0, 1, …, n-1`
(value = key), the 정렬(최악) — "sorted (worst case)" — insertion order. -/
def ascItems (n : Nat) : List (Int × Int) :=
  (List.range n).map (fun i => ((i : Int), (i : Int)))

theorem build_ascItems : ∀ (n : Nat), build (ascItems n) = chain 0 n := by
  intro n
  induction n with
  | zero => rfl
  | succ n ih =>
    rw [show ascItems (n + 1) = ascItems n ++ [((n : Int), (n : Int))] by
      simp [ascItems, List.range_succ]]
    rw [build, List.foldl_append]
    rw [show List.foldl (fun t kv => insert t kv.1 kv.2) Tree.nil (ascItems n)
        = build (ascItems n) from rfl, ih]
    simp only [List.foldl_cons, List.foldl_nil]
    have := insert_chain n 0
    simpa using this

end BST

namespace Bench

/-- `STEP = int(pd.Timedelta(days=400).value)`: 400 days in nanoseconds,
the fixed stride between key replicas. -/
def STEP : Int := 400 * 24 * 60 * 60 * 1000000000

/-- The three insertion orders of the sidebar: `정렬(최악)` (ascending
sort), `역순(최악)` (descending sort), `셔플(평균)` (seeded shuffle). -/
inductive Order : Type
| asc : Order
| desc : Order
| shuffled : Order
deriving DecidableEq, Repr

/-- A 64-bit linear congruential step, standing in for the pseudo-random
stream (see `shuffleModel`). -/
def lcg (s : Nat) : Nat := (6364136223846793005 * s + 1442695040888963407) % (2 ^ 64)

/-- Modelled from the spec: `random.Random(seed).shuffle(items)` is "a
seeded pseudo-random shuffle".  CPython's Mersenne-Twister stream is not
part of this repository; the model performs the same Fisher-Yates walk
(pick a seed-determined index, emit that element, continue on the rest)
with an LCG index stream, which preserves everything the spec states: a
seed-determined permutation of the list. -/
def shuffleModel {α : Type} : Nat → Nat → List α → List α
| 0, _, l => l
| Nat.succ fuel, s, l =>
  match l with
  | [] => []
  | a :: l0 =>
    (a :: l0).get ⟨s % (a :: l0).length, Nat.mod_lt s (by simp)⟩ ::
      shuffleModel fuel (lcg s) ((a :: l0).eraseIdx (s % (a :: l0).length))

theorem perm_get_cons_eraseIdx {α : Type} :
    ∀ (l : List α) (j : Nat) (h : j < l.length),
    l.Perm (l.get ⟨j, h⟩ :: l.eraseIdx j) := by
  intro l
  induction l with
  | nil => intro j h; simp at h
  | cons a l ih =>
    intro j h
    cases j with
    | zero => simp [List.eraseIdx]
    | succ j =>
      have hj : j < l.length := by simpa using h
      have h1 : (a :: l).Perm (a :: (l.get ⟨j, hj⟩ :: l.eraseIdx j)) :=
        (ih j hj).cons a
      exact h1.trans (List.Perm.swap (l.get ⟨j, hj⟩) a (l.eraseIdx j))

theorem shuffleModel_perm {α : Type} :
    ∀ (fuel s : Nat) (l : List α), (shuffleModel fuel s l).Perm l := by
  intro fuel
  induction fuel with
  | zero => intro s l; exact List.Perm.refl l
  | succ fuel ih =>
    intro s l
    match l with
    | [] => exact List.Perm.refl _
    | a :: l0 =>
      have h1 := ih (lcg s) ((a :: l0).eraseIdx (s % (a :: l0).length))
      have h2 := perm_get_cons_eraseIdx (a :: l0) (s % (a :: l0).length)
        (Nat.mod_lt s (by simp))
      exact (h1.cons _).trans h2.symm

/-- `make_items(mult, order, seed)` (benchmark lines 246-258): replicate
`base_items` `mult` times, offsetting the keys of replica `t` by
`t * STEP`, then order the combined list: ascending stable sort
(`items.sort(key=lambda x: x[0])`), descending stable sort
(`reverse=True`), or seeded shuffle. -/
def make_items {V : Type} (base : List (Int × V)) (mult : Nat) (order : Order)
    (seed : Nat) : List (Int × V) :=
  let items := (List.range mult).flatMap
    (fun t => base.map (fun kv => (kv.1 + (t : Int) * STEP, kv.2)))
  match order with
  | Order.asc => items.mergeSort (fun x y => decide (x.1 ≤ y.1))
  | Order.desc => items.mergeSort (fun x y => decide (y.1 ≤ x.1))
  | Order.shuffled => shuffleModel items.length seed items

/-- The replicated item list before ordering. -/
def replicated {V : Type} (base : List (Int × V)) (mult : Nat) : List (Int × V) :=
  (List.range mult).flatMap
    (fun t => base.map (fun kv => (kv.1 + (t : Int) * STEP, kv.2)))

theorem make_items_perm_replicated {V : Type} (base : List (Int × V))
    (mult : Nat) (order : Order) (seed : Nat) :
    (make_items base mult order seed).Perm (replicated base mult) := by
  cases order with
  | asc => exact List.mergeSort_perm _ _
  | desc => exact List.mergeSort_perm _ _
  | shuffled => exact shuffleModel_perm _ _ _

theorem length_replicated {V : Type} (base : List (Int × V)) (mult : Nat) :
    (replicated base mult).length = mult * base.length := by
  unfold replicated
  induction mult with
  | zero => simp
  | succ m ih =>
    rw [List.range_succ, List.flatMap_append, List.length_append, ih]
    simp [Nat.succ_mul]

theorem keys_replicated {V : Type} (base : List (Int × V)) (mult : Nat) :
    (replicated base mult).map Prod.fst
      = (List.range mult).flatMap
          (fun t => (base.map Prod.fst).map (fun k => k + (t : Int) * STEP)) := by
  unfold replicated
  rw [List.map_flatMap]
  congr 1
  funext t
  simp [List.map_map]

theorem STEP_pos : (0 : Int) < STEP := by norm_num [STEP]

/-- No key of any replica collides with a key of any other replica, as
long as the base keys are pairwise distinct and the base key span is less
than the stride. -/
theorem keys_replicated_nodup {V : Type} (base : List (Int × V)) (mult : Nat)
    (hnd : (base.map Prod.fst).Nodup)
    (hspan : ∀ x ∈ base.map Prod.fst, ∀ y ∈ base.map Prod.fst, x - y < STEP) :
    ((replicated base mult).map Prod.fst).Nodup := by
  rw [keys_replicated]
  rw [List.nodup_flatMap]
  constructor
  · intro t _
    exact hnd.map (fun x y hxy => by omega)
  · have hlt := List.pairwise_lt_range mult
    refine hlt.imp ?_
    intro t1 t2 h12
    rw [Function.onFun, List.disjoint_left]
    intro z hz1 hz2
    obtain ⟨x, hx, hxz⟩ := List.mem_map.mp hz1
    obtain ⟨y, hy, hyz⟩ := List.mem_map.mp hz2
    have hxz2 : x + (t1 : Int) * STEP = z := hxz
    have hyz2 : y + (t2 : Int) * STEP = z := hyz
    have hxy := hspan x hx y hy
    have hts : ((t1 : Int) + 1) * STEP ≤ (t2 : Int) * STEP := by
      have h1 : (t1 : Int) + 1 ≤ (t2 : Int) := by exact_mod_cast h12
      exact mul_le_mul_of_nonneg_right h1 (le_of_lt STEP_pos)
    rw [add_mul, one_mul] at hts
    omega

/-- The total sum of `range_count` hits of the benchmark loop
`for lo, hi in ranges: s += tree.range_count(lo, hi)`, for the BST. -/
def bst_hits {V : Type} (items : List (Int × V)) (ranges : List (Int × Int)) : Nat :=
  (ranges.map (fun r => BST.range_count r.1 r.2 (BST.build items))).sum

/-- Ditto for the RBT. -/
def rbt_hits {V : Type} (items : List (Int × V)) (ranges : List (Int × Int)) : Nat :=
  (ranges.map (fun r => RBT.range_count r.1 r.2 (RBT.build items))).sum

end Bench

/-! ## Claim theorems -/

/-- C1 (counterexample): the claim fails on the benchmark `RBTree.insert`.
Key 1 is already present after the first insert, yet inserting it again
grows the node count from 1 to 2: a new node is created and the old value
is not overwritten. -/
theorem C1_counterexample :
    ((1 : Int) ∈ (RBT.pairs (RBT.insert (Tree.nil : Tree (RBT.P Int)) 1 10)).map
      Prod.fst) ∧
    (RBT.insert (Tree.nil : Tree (RBT.P Int)) 1 10).size = 1 ∧
    (RBT.insert (RBT.insert (Tree.nil : Tree (RBT.P Int)) 1 10) 1 20).size = 2 := by
  refine ⟨by decide, rfl, rfl⟩

/-- C1 (amended): inserting an already-present key into the BST or into
the dashboard RBTree overwrites only that key's value and leaves the node
count unchanged; the benchmark RBTree instead creates one fresh node on
EVERY insert (its node count always grows by one, even for a present
key). -/
theorem C1_amended {V : Type} (items : List (Int × V)) (k : Int) (v : V) :
    (k ∈ ((BST.build items).inorder).map Prod.fst →
      (BST.insert (BST.build items) k v).size = (BST.build items).size ∧
      (BST.insert (BST.build items) k v).inorder
        = ((BST.build items).inorder).map (fun a => if a.1 = k then (k, v) else a)) ∧
    (k ∈ (RBT.pairs (RBT.buildD items)).map Prod.fst →
      (RBT.insertD (RBT.buildD items) k v).size = (RBT.buildD items).size ∧
      RBT.pairs (RBT.insertD (RBT.buildD items) k v)
        = (RBT.pairs (RBT.buildD items)).map (fun a => if a.1 = k then (k, v) else a)) ∧
    ∀ (t : Tree (RBT.P V)), (RBT.insert t k v).size = t.size + 1 := by
  refine ⟨?_, ?_, fun t => RBT.size_insert t k v⟩
  · intro hmem
    have hs := BST.sorted_build items
    have hio : (BST.insert (BST.build items) k v).inorder
        = ((BST.build items).inorder).map (fun a => if a.1 = k then (k, v) else a) := by
      rw [BST.inorder_insert k v _ hs]
      exact lupdIns_eq_map_of_mem k v _ hs hmem
    refine ⟨?_, hio⟩
    rw [← Tree.length_inorder, ← Tree.length_inorder, hio, List.length_map]
  · intro hmem
    have hs := RBT.buildD_sorted items
    have hsP : KSorted keyP (RBT.pairs (RBT.buildD items)) :=
      (RBT.KSorted_pairs_iff _).mpr hs
    have hio : RBT.pairs (RBT.insertD (RBT.buildD items) k v)
        = (RBT.pairs (RBT.buildD items)).map (fun a => if a.1 = k then (k, v) else a) := by
      rw [RBT.insertD_pairs _ k v hs]
      exact lupdIns_eq_map_of_mem k v _ hsP hmem
    refine ⟨?_, hio⟩
    rw [← RBT.size_eq_pairs_length, ← RBT.size_eq_pairs_length, hio, List.length_map]

/-- C1 (witness): the amended claim at the concrete input
`items = [(1,10),(2,20)]`, `k = 1`, `v = 99`. -/
theorem C1_witness :
    ((1 : Int) ∈ ((BST.build [((1 : Int), (10 : Int)), (2, 20)]).inorder).map Prod.fst) ∧
    (BST.insert (BST.build [((1 : Int), (10 : Int)), (2, 20)]) 1 99).size
      = (BST.build [((1 : Int), (10 : Int)), (2, 20)]).size ∧
    (RBT.insertD (RBT.buildD [((1 : Int), (10 : Int)), (2, 20)]) 1 99).size
      = (RBT.buildD [((1 : Int), (10 : Int)), (2, 20)]).size :=
  ⟨by decide,
   ((C1_amended [((1 : Int), (10 : Int)), (2, 20)] 1 99).1 (by decide)).1,
   ((C1_amended [((1 : Int), (10 : Int)), (2, 20)] 1 99).2.1 (by decide)).1⟩

/-- C2: on trees built by any insert sequence, the collecting range query
(dashboard `RBTree.range_items`) returns exactly the in-range `(key,
value)` pairs in strictly ascending key order, and the counting range
query (benchmark `BST.range_count`) returns exactly the length of that
sequence (the in-range entry count of the common content). -/
theorem C2_range_correct {V : Type} (items : List (Int × V)) (lo hi : Int) :
    RBT.range_items lo hi (RBT.buildD items)
      = (RBT.pairs (RBT.buildD items)).filter
          (fun p => decide (lo ≤ p.1) && decide (p.1 ≤ hi)) ∧
    (RBT.range_items lo hi (RBT.buildD items)).Pairwise (fun x y => x.1 < y.1) ∧
    BST.range_count lo hi (BST.build items)
      = ((BST.build items).inorder.filter
          (fun a => decide (lo ≤ a.1) && decide (a.1 ≤ hi))).length ∧
    BST.range_count lo hi (BST.build items)
      = (RBT.range_items lo hi (RBT.buildD items)).length := by
  have hsB := BST.sorted_build items
  have hsR := RBT.buildD_sorted items
  have h1 := RBT.range_items_spec lo hi (RBT.buildD items) hsR
  have h3 := BST.range_count_specB lo hi (BST.build items) hsB
  refine ⟨h1, ?_, h3, ?_⟩
  · rw [h1]
    exact ((RBT.KSorted_pairs_iff _).mpr hsR).filter _
  · rw [h3, h1, BST.inorder_build, RBT.buildD_pairs]

/-- C3 (counterexample): with `n` read as the number of (distinct) keys,
the height bound fails on the benchmark RBTree.  Four inserts of the same
key 1 build a tree with one key but four nodes of height 3, and
`3 > 2·log₂(1+1) = 2`. -/
theorem C3_counterexample :
    ((RBT.pairs (RBT.build
        [((1 : Int), (10 : Int)), (1, 20), (1, 30), (1, 40)])).map Prod.fst).dedup
      = [1] ∧
    RBT.height (RBT.build [((1 : Int), (10 : Int)), (1, 20), (1, 30), (1, 40)]) = 3 ∧
    ¬ (RBT.height (RBT.build [((1 : Int), (10 : Int)), (1, 20), (1, 30), (1, 40)])
        ≤ 2 * Nat.log 2 (1 + 1)) := by
  have h : RBT.height (RBT.build [((1 : Int), (10 : Int)), (1, 20), (1, 30), (1, 40)])
      = Tree.heightN (RBT.build [((1 : Int), (10 : Int)), (1, 20), (1, 30), (1, 40)]) := by
    rw [RBT.height, heightIter_eq_heightN]
  have hlog : Nat.log 2 (1 + 1) = 1 :=
    Nat.log_eq_of_pow_le_of_lt_pow (by norm_num) (by norm_num)
  refine ⟨by decide, ?_, ?_⟩
  · rw [h]; decide
  · rw [h, hlog]; decide

/-- C3 (amended): after any sequence of inserts into either RBT variant,
the root and the sentinel are BLACK, no RED node has a RED child, every
root-to-sentinel path has the same number of BLACK nodes, and the height
is at most `2·log₂(n+1)` where `n` is the number of NODES (for the
dashboard RBTree this equals the number of distinct keys; the benchmark
RBTree allocates one node per insert, so duplicate keys inflate `n`). -/
theorem C3_amended {V : Type} (items : List (Int × V)) :
    (RBT.cOf (RBT.build items) = Color.black ∧
     RBT.cOf (Tree.nil : Tree (RBT.P V)) = Color.black ∧
     RBT.RedOK (RBT.build items) ∧
     (∃ n, ∀ m ∈ RBT.pathBlacks (RBT.build items), m = n) ∧
     RBT.height (RBT.build items)
       ≤ 2 * Nat.log 2 ((RBT.build items).size + 1)) ∧
    (RBT.cOf (RBT.buildD items) = Color.black ∧
     RBT.RedOK (RBT.buildD items) ∧
     (∃ n, ∀ m ∈ RBT.pathBlacks (RBT.buildD items), m = n) ∧
     RBT.height (RBT.buildD items)
       ≤ 2 * Nat.log 2 ((RBT.buildD items).size + 1)) := by
  obtain ⟨hc1, hrok1, n1, hbal1⟩ := RBT.build_RBInv (V := V) items
  obtain ⟨hc2, hrok2, n2, hbal2⟩ := RBT.buildD_RBInv (V := V) items
  refine ⟨⟨hc1, rfl, hrok1, ⟨n1, RBT.Bal_pathBlacks hbal1⟩, ?_⟩,
    hc2, hrok2, ⟨n2, RBT.Bal_pathBlacks hbal2⟩, ?_⟩
  · rw [RBT.height, heightIter_eq_heightN]
    exact RBT.height_le_log _ ⟨hc1, hrok1, n1, hbal1⟩
  · rw [RBT.height, heightIter_eq_heightN]
    exact RBT.height_le_log _ ⟨hc2, hrok2, n2, hbal2⟩

/-- C4: evaluating the code at the failing input.  Inserting the 5000 keys
`0..4999` in ascending order (the benchmark's 정렬(최악) order) makes the
BST a 5000-deep right chain.  The explicit-stack `height()` of
`pages/06_tree_benchmark.py` computes 5000 without recursion; the
recursive `height()` of `pages/pages/06_tree_benchmark.py` computes the
same number by 5000 nested calls, far beyond CPython's default recursion
limit of 1000. -/
theorem C4_degenerate_height :
    BST.height (BST.build (BST.ascItems 5000)) = 5000 ∧
    heightRec (BST.build (BST.ascItems 5000)) = 5000 ∧
    1000 < 5000 := by
  have h := BST.build_ascItems 5000
  refine ⟨?_, ?_, by norm_num⟩
  · rw [BST.height, heightIter_eq_heightN, h, BST.heightN_chain]
  · rw [heightRec_eq_heightN, h, BST.heightN_chain]

/-- C5: when the base keys are pairwise distinct and the base key span is
smaller than the stride `STEP` (400 days in nanoseconds), every replica's
keys avoid every other replica's keys, so `make_items` emits pairwise
distinct keys, for every multiplier, order, and seed. -/
theorem C5_distinct_keys {V : Type} (base : List (Int × V)) (mult : Nat)
    (order : Bench.Order) (seed : Nat)
    (hnd : (base.map Prod.fst).Nodup)
    (hspan : ∀ x ∈ base.map Prod.fst, ∀ y ∈ base.map Prod.fst, x - y < Bench.STEP) :
    ((Bench.make_items base mult order seed).map Prod.fst).Nodup := by
  have hperm := (Bench.make_items_perm_replicated base mult order seed).map Prod.fst
  exact hperm.nodup_iff.mpr (Bench.keys_replicated_nodup base mult hnd hspan)

/-- C5 (witness): concrete instance `base = [(0,0),(1,1)]`, `mult = 3`. -/
theorem C5_witness :
    (([((0 : Int), (0 : Int)), (1, 1)].map Prod.fst).Nodup) ∧
    (∀ x ∈ [((0 : Int), (0 : Int)), (1, 1)].map Prod.fst,
      ∀ y ∈ [((0 : Int), (0 : Int)), (1, 1)].map Prod.fst, x - y < Bench.STEP) ∧
    ((Bench.make_items [((0 : Int), (0 : Int)), (1, 1)] 3 Bench.Order.asc 42).map
      Prod.fst).Nodup :=
  ⟨by decide, by decide,
   C5_distinct_keys [((0 : Int), (0 : Int)), (1, 1)] 3 Bench.Order.asc 42
     (by decide) (by decide)⟩

/-- C6 (counterexample): built from the identical sequence
`[(1,10),(1,20)]` (a duplicate key), the two trees answer the range query
`(1,1)` differently: the BST overwrote the duplicate (1 hit) while the
benchmark RBTree stored two nodes (2 hits). -/
theorem C6_counterexample :
    BST.range_count 1 1 (BST.build [((1 : Int), (10 : Int)), (1, 20)]) = 1 ∧
    RBT.range_count 1 1 (RBT.build [((1 : Int), (10 : Int)), (1, 20)]) = 2 := by
  refine ⟨by decide, by decide⟩

/-- C6 (amended): when the item keys are pairwise distinct — as the
benchmark intends via the `STEP` offsets — the BST and the benchmark RBT
built from the identical sequence agree on EVERY range query, and hence on
the per-query hit counts and their totals. -/
theorem C6_amended {V : Type} (items : List (Int × V))
    (hnd : (items.map Prod.fst).Nodup) :
    (∀ lo hi, BST.range_count lo hi (BST.build items)
        = RBT.range_count lo hi (RBT.build items)) ∧
    ∀ ranges : List (Int × Int), Bench.bst_hits items ranges
        = Bench.rbt_hits items ranges := by
  have hBs := BST.sorted_build items
  have hRs := RBT.build_sorted_nodup items hnd
  have hq : ∀ lo hi, BST.range_count lo hi (BST.build items)
      = RBT.range_count lo hi (RBT.build items) := by
    intro lo hi
    rw [BST.range_count_specB lo hi _ hBs, RBT.range_count_spec lo hi _ hRs,
      BST.inorder_build, RBT.build_pairs_nodup items hnd]
  refine ⟨hq, ?_⟩
  intro ranges
  unfold Bench.bst_hits Bench.rbt_hits
  congr 1
  exact List.map_congr_left (fun r _ => hq r.1 r.2)

/-- C6 (witness): the amended claim at `items = [(1,10),(2,20),(3,30)]`,
query `(1, 2)`. -/
theorem C6_witness :
    (([((1 : Int), (10 : Int)), (2, 20), (3, 30)].map Prod.fst).Nodup) ∧
    BST.range_count 1 2 (BST.build [((1 : Int), (10 : Int)), (2, 20), (3, 30)])
      = RBT.range_count 1 2 (RBT.build [((1 : Int), (10 : Int)), (2, 20), (3, 30)]) :=
  ⟨by decide,
   (C6_amended [((1 : Int), (10 : Int)), (2, 20), (3, 30)] (by decide)).1 1 2⟩

/-- C7: on every BST (built by the benchmark's insert loop) and every
dashboard RBT (built by its insert loop), `lower_bound(k)` returns the
node holding the smallest key ≥ `k`, and returns empty (`None` for the
BST, the sentinel — here `none` — for the RBT) when no key is ≥ `k`,
including on the empty tree. -/
theorem C7_lower_bound {V : Type} (items : List (Int × V)) (k : Int) :
    (BST.lower_bound k (BST.build items) = none →
      ∀ b ∈ (BST.build items).inorder, keyP b < k) ∧
    (∀ z, BST.lower_bound k (BST.build items) = some z →
      ∃ l a r c, z = ⟨Tree.node l a r, c⟩ ∧ a ∈ (BST.build items).inorder ∧
        k ≤ keyP a ∧
        ∀ b ∈ (BST.build items).inorder, k ≤ keyP b → keyP a ≤ keyP b) ∧
    (RBT.lower_bound k (RBT.buildD items) = none →
      ∀ b ∈ (RBT.buildD items).inorder, RBT.keyR b < k) ∧
    (∀ z, RBT.lower_bound k (RBT.buildD items) = some z →
      ∃ l a r c, z = ⟨Tree.node l a r, c⟩ ∧ a ∈ (RBT.buildD items).inorder ∧
        k ≤ RBT.keyR a ∧
        ∀ b ∈ (RBT.buildD items).inorder, k ≤ RBT.keyR b → RBT.keyR a ≤ RBT.keyR b) ∧
    BST.lower_bound k (Tree.nil : Tree (Int × V)) = none ∧
    RBT.lower_bound k (Tree.nil : Tree (RBT.P V)) = none := by
  obtain ⟨hn1, hs1⟩ := lower_bound_spec keyP k (BST.build items) (BST.sorted_build items)
  obtain ⟨hn2, hs2⟩ :=
    lower_bound_spec RBT.keyR k (RBT.buildD items) (RBT.buildD_sorted items)
  exact ⟨hn1, hs1, hn2, hs2, rfl, rfl⟩

/-- C7 (witness): the no-key-≥-k case at `items = [(1,10)]`, `k = 10`. -/
theorem C7_witness : keyP ((1 : Int), (10 : Int)) < 10 :=
  (C7_lower_bound [((1 : Int), (10 : Int))] 10).1 (by decide)
    ((1 : Int), (10 : Int)) (by decide)

/-- C8: a left rotation at a node `x` with a real right child `y` (and a
right rotation at a node with a real left child, its mirror) restructures
exactly as CLRS prescribes, and — plugged back into an arbitrary ancestor
context, which is the zipper rendering of the source's three parent-pointer
updates (`y.l.p = x`, `y.p = x.p`, and `x.p.l/r = y`, with `self.root = y`
when the context is empty, i.e. `x` was the root) — preserves the in-order
payload sequence of the whole tree. -/
theorem C8_rotations {V : Type} (a b c : Tree (RBT.P V)) (x y : RBT.P V)
    (ctx : Ctx (RBT.P V)) :
    RBT.lrot (Tree.node a x (Tree.node b y c)) = Tree.node (Tree.node a x b) y c ∧
    RBT.rrot (Tree.node (Tree.node a y b) x c) = Tree.node a y (Tree.node b x c) ∧
    (plug (RBT.lrot (Tree.node a x (Tree.node b y c))) ctx).inorder
      = (plug (Tree.node a x (Tree.node b y c)) ctx).inorder ∧
    (plug (RBT.rrot (Tree.node (Tree.node a y b) x c)) ctx).inorder
      = (plug (Tree.node (Tree.node a y b) x c) ctx).inorder := by
  refine ⟨rfl, rfl, ?_, ?_⟩
  · rw [inorder_plug, inorder_plug]
    simp [RBT.lrot, Tree.inorder, List.append_assoc]
  · rw [inorder_plug, inorder_plug]
    simp [RBT.rrot, Tree.inorder, List.append_assoc]

/-- C9: an inverted range (`lo > hi`) is not an error on ANY tree — the
counting loops of both engines return 0 and the dashboard's collecting
loop returns `[]` — and on the empty tree every range query returns
0 / `[]` as well.  (Totality itself is carried by the embedding: every
operation here is a Lean `def`, total on all inputs by construction,
faithful to the source's loops which only compare, descend and count.) -/
theorem C9_empty_range {V : Type} (lo hi : Int) (t : Tree (Int × V))
    (tr : Tree (RBT.P V)) :
    (hi < lo →
      BST.range_count lo hi t = 0 ∧
      RBT.range_count lo hi tr = 0 ∧
      RBT.range_items lo hi tr = []) ∧
    BST.range_count lo hi (Tree.nil : Tree (Int × V)) = 0 ∧
    RBT.range_count lo hi (Tree.nil : Tree (RBT.P V)) = 0 ∧
    RBT.range_items lo hi (Tree.nil : Tree (RBT.P V)) = [] := by
  refine ⟨fun h => ⟨?_, ?_, ?_⟩, rfl, rfl, rfl⟩
  · exact rangeLoopCount_inverted keyP lo hi t t.size h
  · exact rangeLoopCount_inverted RBT.keyR lo hi tr tr.size h
  · exact rangeLoopItems_inverted RBT.keyR RBT.kv lo hi tr tr.size h

/-- C9 (witness): the inverted range `(5, 3)` on concrete one-node trees. -/
theorem C9_witness :
    (3 : Int) < 5 ∧
    (BST.range_count 5 3 (BST.build [((1 : Int), (1 : Int))]) = 0 ∧
     RBT.range_count 5 3 (RBT.build [((1 : Int), (1 : Int))]) = 0 ∧
     RBT.range_items 5 3 (RBT.build [((1 : Int), (1 : Int))]) = []) :=
  ⟨by decide,
   (C9_empty_range 5 3 (BST.build [((1 : Int), (1 : Int))])
     (RBT.build [((1 : Int), (1 : Int))])).1 (by decide)⟩

/-- C10: for a fixed base item list, multiplier and seed, the three order
settings of `make_items` (ascending sort, descending sort, seeded shuffle)
produce permutations of one another — the same multiset of (key, value)
pairs — each of length `mult * base.length`. -/
theorem C10_orders_permutation {V : Type} (base : List (Int × V)) (mult seed : Nat) :
    (Bench.make_items base mult Bench.Order.asc seed).Perm
      (Bench.make_items base mult Bench.Order.desc seed) ∧
    (Bench.make_items base mult Bench.Order.asc seed).Perm
      (Bench.make_items base mult Bench.Order.shuffled seed) ∧
    ∀ order, (Bench.make_items base mult order seed).length = mult * base.length := by
  have ha := Bench.make_items_perm_replicated base mult Bench.Order.asc seed
  have hd := Bench.make_items_perm_replicated base mult Bench.Order.desc seed
  have hs := Bench.make_items_perm_replicated base mult Bench.Order.shuffled seed
  refine ⟨ha.trans hd.symm, ha.trans hs.symm, fun order => ?_⟩
  rw [(Bench.make_items_perm_replicated base mult order seed).length_eq,
    Bench.length_replicated]

end Yongin
